import Mathlib

/-!
Formal model of the `secretshare` Python package (Shamir secret sharing).

The development shallowly embeds the package's core modules:

* `calc.py` — integer/byte conversions, modular arithmetic helpers,
  polynomial evaluation and Lagrange interpolation;
* `primes.py` — the large fixed prime table with its lookup and
  rejection-sampling helpers (class `Primes` of that module);
* `secretshare.py` — the byte-oriented `Secret`/`Share` value objects and
  the `SecretShare` engine with its own small prime table.

Python `bytes` values are modelled as `List Nat` whose entries are below 256
(`ValidBytes`); Python arbitrary-precision integers are `Int`/`Nat`.
External randomness (`passphrase.random.randint`, `passphrase.secrets.randbelow`)
is modelled as an explicit oracle argument (a list or function of draws).
-/

/-- Python `bytes` values: a list of byte values. -/
abbrev Bytes := List Nat

/-- Well-formedness of a modelled byte string: every entry is an actual byte. -/
def ValidBytes (b : Bytes) : Prop := ∀ x ∈ b, x < 256

instance : DecidablePred ValidBytes := fun b =>
  inferInstanceAs (Decidable (∀ x ∈ b, x < 256))

/-- `calc.bytes_to_int` (with `signed=False`, the only way the package calls it):
Python `int.from_bytes(bts, 'big')`. -/
def bytes_to_int (bts : Bytes) : Nat :=
  bts.foldl (fun acc b => acc * 256 + b) 0

/-- Fuel-driven floor base-2 logarithm; the fuel only drives termination and
`log2F n n` computes `⌊log₂ n⌋` (for `n ≥ 1`, `n` halvings always suffice). -/
def log2F : Nat → Nat → Nat
  | 0, _ => 0
  | fuel+1, n => if 2 ≤ n then log2F fuel (n / 2) + 1 else 0

/-- Python `int.bit_length()` for nonnegative integers. -/
def bit_length (n : Nat) : Nat := if n = 0 then 0 else log2F n n + 1

/-- Big-endian encoding of `n` into exactly `k` bytes, the semantics of Python
`n.to_bytes(k, 'big')`.  (Python additionally raises `OverflowError` when
`n ≥ 256^k`; every call site modelled below satisfies the bound.) -/
def toBytesBE : Nat → Nat → Bytes
  | 0, _ => []
  | k+1, n => toBytesBE k (n / 256) ++ [n % 256]

/-- `calc.int_to_bytes` restricted to nonnegative input (every call site in the
modelled code passes a nonnegative value, so the `signed = num < 0` branch is
dead code there): encode with `ceil(bit_length/8) or 1` bytes, big-endian. -/
def int_to_bytes (num : Nat) : Bytes :=
  let l := (bit_length num + 7) / 8
  toBytesBE (if l = 0 then 1 else l) num

theorem log2F_spec (fuel : Nat) : ∀ n, 1 ≤ n → n ≤ fuel →
    2 ^ log2F fuel n ≤ n ∧ n < 2 ^ (log2F fuel n + 1) := by
  induction fuel with
  | zero => intro n h1 h2; omega
  | succ f ih =>
    intro n h1 h2
    by_cases h : 2 ≤ n
    · have hrec : log2F (f+1) n = log2F f (n / 2) + 1 := by
        simp [log2F, h]
      have hdiv1 : 1 ≤ n / 2 := Nat.one_le_div_iff (by omega) |>.mpr h
      have hdiv2 : n / 2 ≤ f := by omega
      obtain ⟨hlo, hhi⟩ := ih (n / 2) hdiv1 hdiv2
      constructor
      · calc 2 ^ log2F (f+1) n = 2 * 2 ^ log2F f (n / 2) := by
              rw [hrec]; ring
          _ ≤ 2 * (n / 2) := by omega
          _ ≤ n := Nat.mul_div_le n 2
      · have : n < 2 * (2 ^ (log2F f (n / 2) + 1)) := by omega
        calc n < 2 * 2 ^ (log2F f (n / 2) + 1) := this
          _ = 2 ^ (log2F (f+1) n + 1) := by rw [hrec]; ring
    · have hn : n = 1 := by omega
      simp [log2F, h, hn]

theorem bit_length_spec (n : Nat) (h : 1 ≤ n) :
    2 ^ (bit_length n - 1) ≤ n ∧ n < 2 ^ bit_length n := by
  have hn : n ≠ 0 := by omega
  obtain ⟨hlo, hhi⟩ := log2F_spec n n h le_rfl
  unfold bit_length
  simp only [hn, if_false]
  exact ⟨by simpa using hlo, hhi⟩

theorem lt_two_pow_bit_length (n : Nat) : n < 2 ^ bit_length n := by
  rcases Nat.eq_zero_or_pos n with h | h
  · subst h; simp [bit_length]
  · exact (bit_length_spec n h).2

theorem toBytesBE_length (k n : Nat) : (toBytesBE k n).length = k := by
  induction k generalizing n with
  | zero => simp [toBytesBE]
  | succ k ih => simp [toBytesBE, ih]

theorem bytes_to_int_append (bs : Bytes) (c : Nat) :
    bytes_to_int (bs ++ [c]) = 256 * bytes_to_int bs + c := by
  simp [bytes_to_int, List.foldl_append]
  ring

theorem bytes_to_int_toBytesBE (k n : Nat) :
    bytes_to_int (toBytesBE k n) = n % 256 ^ k := by
  induction k generalizing n with
  | zero => simp [toBytesBE, bytes_to_int, Nat.mod_one]
  | succ k ih =>
    rw [toBytesBE, bytes_to_int_append, ih, pow_succ', Nat.mod_mul]
    ring

theorem bytes_to_int_lt (b : Bytes) (hb : ValidBytes b) :
    bytes_to_int b < 256 ^ b.length := by
  induction b using List.reverseRecOn with
  | nil => simp [bytes_to_int]
  | append_singleton bs c ih =>
    have hbs : ValidBytes bs := fun x hx => hb x (by simp [hx])
    have hc : c < 256 := hb c (by simp)
    have := ih hbs
    rw [bytes_to_int_append]
    simp only [List.length_append, List.length_singleton]
    calc 256 * bytes_to_int bs + c < 256 * (bytes_to_int bs + 1) := by omega
      _ ≤ 256 * 256 ^ bs.length := by
          have : bytes_to_int bs + 1 ≤ 256 ^ bs.length := this
          exact Nat.mul_le_mul_left 256 this
      _ = 256 ^ (bs.length + 1) := by ring

theorem toBytesBE_bytes_to_int (b : Bytes) (hb : ValidBytes b) :
    toBytesBE b.length (bytes_to_int b) = b := by
  induction b using List.reverseRecOn with
  | nil => simp [toBytesBE, bytes_to_int]
  | append_singleton bs c ih =>
    have hbs : ValidBytes bs := fun x hx => hb x (by simp [hx])
    have hc : c < 256 := hb c (by simp)
    rw [bytes_to_int_append]
    simp only [List.length_append, List.length_singleton]
    rw [toBytesBE]
    have hdiv : (256 * bytes_to_int bs + c) / 256 = bytes_to_int bs := by
      omega
    have hmod : (256 * bytes_to_int bs + c) % 256 = c := by
      omega
    rw [hdiv, hmod, ih hbs]

theorem le_bytes_to_int_cons (c : Nat) (bs : Bytes) (hc : 1 ≤ c) :
    256 ^ bs.length ≤ bytes_to_int (c :: bs) := by
  induction bs using List.reverseRecOn with
  | nil => simpa [bytes_to_int] using hc
  | append_singleton bs' d ih =>
    rw [show c :: (bs' ++ [d]) = (c :: bs') ++ [d] by simp, bytes_to_int_append]
    simp only [List.length_append, List.length_singleton]
    calc (256 : Nat) ^ (bs'.length + 1) = 256 * 256 ^ bs'.length := by ring
      _ ≤ 256 * bytes_to_int (c :: bs') := Nat.mul_le_mul_left _ ih
      _ ≤ 256 * bytes_to_int (c :: bs') + d := Nat.le_add_right _ _

/-- Key inversion fact: on nonempty byte strings with no leading zero byte,
`int_to_bytes` undoes `bytes_to_int`. -/
theorem int_to_bytes_bytes_to_int (b : Bytes) (hb : ValidBytes b)
    (hne : b ≠ []) (hhead : b.headI ≠ 0) :
    int_to_bytes (bytes_to_int b) = b := by
  obtain ⟨c, bs, rfl⟩ := List.exists_cons_of_ne_nil hne
  have hc : 1 ≤ c := by
    have : c ≠ 0 := by simpa [List.headI] using hhead
    omega
  set n := bytes_to_int (c :: bs) with hn
  set L := (c :: bs).length with hL
  have hLpos : 1 ≤ L := by simp [hL]
  -- lower bound: n ≥ 256 ^ (L - 1)
  have hlow : 256 ^ (L - 1) ≤ n := by
    have := le_bytes_to_int_cons c bs hc
    simpa [hn, hL] using this
  have hhigh : n < 256 ^ L := bytes_to_int_lt _ hb
  -- hence bit_length n lies in (8*(L-1), 8*L]
  have hnpos : 1 ≤ n := le_trans (Nat.one_le_pow _ _ (by norm_num)) hlow
  obtain ⟨hb1, hb2⟩ := bit_length_spec n hnpos
  have hpow1 : (256 : Nat) ^ (L - 1) = 2 ^ (8 * (L - 1)) := by
    rw [show (256 : Nat) = 2 ^ 8 by norm_num, ← pow_mul]
  have hpow2 : (256 : Nat) ^ L = 2 ^ (8 * L) := by
    rw [show (256 : Nat) = 2 ^ 8 by norm_num, ← pow_mul]
  have hblo : 8 * (L - 1) < bit_length n := by
    by_contra hcon
    push_neg at hcon
    have : (2:Nat) ^ bit_length n ≤ 2 ^ (8 * (L - 1)) :=
      Nat.pow_le_pow_right (by norm_num) hcon
    rw [← hpow1] at this
    omega
  have hbhi : bit_length n ≤ 8 * L := by
    by_contra hcon
    push_neg at hcon
    have h1 : (2:Nat) ^ (8 * L) ≤ 2 ^ (bit_length n - 1) := by
      apply Nat.pow_le_pow_right (by norm_num)
      omega
    rw [← hpow2] at h1
    omega
  have hlen : (bit_length n + 7) / 8 = L := by omega
  unfold int_to_bytes
  simp only [hlen]
  have hne0 : L ≠ 0 := by omega
  simp only [hne0, if_false]
  exact toBytesBE_bytes_to_int _ hb

/-- C10: `bytes_to_int ∘ int_to_bytes` is the identity on nonnegative integers,
and `int_to_bytes 0` is the single zero byte, never the empty string. -/
theorem C10_int_bytes_roundtrip :
    (∀ n : Nat, bytes_to_int (int_to_bytes n) = n) ∧ int_to_bytes 0 = [0] := by
  constructor
  · intro n
    unfold int_to_bytes
    set l := (bit_length n + 7) / 8 with hl
    have hfit : n < 256 ^ (if l = 0 then 1 else l) := by
      rcases Nat.eq_zero_or_pos n with h0 | hpos
      · subst h0
        split <;> positivity
      · have h1 : 1 ≤ bit_length n := by
          have hne : n ≠ 0 := by omega
          unfold bit_length
          simp [hne]
        have h2 : l ≠ 0 := by
          rw [hl]; omega
        simp only [h2, if_false]
        have h3 : n < 2 ^ bit_length n := lt_two_pow_bit_length n
        calc n < 2 ^ bit_length n := h3
          _ ≤ 2 ^ (8 * l) := by
              apply Nat.pow_le_pow_right (by norm_num)
              rw [hl]; omega
          _ = 256 ^ l := by
              rw [show (256 : Nat) = 2 ^ 8 by norm_num, ← pow_mul]
    rw [bytes_to_int_toBytesBE, Nat.mod_eq_of_lt hfit]
  · rfl
namespace Primes

/-- The `primes.py` table entry at security level 128 (decoded from its base64
form in the source; equals `2^128 + 51`). -/
def prime128 : Nat := 340282366920938463463374607431768211507

/-- Table entry at level 256 (`2^256 + 297`). -/
def prime256 : Nat := 115792089237316195423570985008687907853269984665640564039457584007913129640233

/-- Table entry at level 512 (the 13th Mersenne prime `2^521 - 1`). -/
def prime512 : Nat := 6864797660130609714981900799081393217269435300143305409394463459185543183397656052122559640661454554977296311391480858037121987999716643812574028291115057151

/-- Table entry at level 1024 (a 1024-bit prime generated with ssh-keygen). -/
def prime1024 : Nat := 137415754142160047942653072235537809910921349170556214752763209585558382334405081159199390185440245815917800605606693583353317319312041131628295962571040191279984348235469107167780554853918098130875244161095179796128295664400806305878054204877473143505170101720734552804389974905299217815027090685830046461187

/-- Table entry at level 2048 (a 2048-bit prime). -/
def prime2048 : Nat := 29541250062878038441811193661225821468997961732125268213956698879556178300455587405917953997580387961769367542217188955102341951704579558791296959598915167384370680967086391828040351208919242524628432820458203996435062093665287539180207171433548611454439965472918167226951931059717724390801565918431453541316419521853754383076946230147284642787428646114943661675572377897451181310770515134112444107203051558983131866136686244836895244660346788022294394217480140558232454298038608641351441464473182662126383861071915447116922802657331029429632920476597980949984811870036250068743903786075017630517272604660599600924863

/-- Table entry at level 4096 (a 4096-bit prime). -/
def prime4096 : Nat := 793615900079835967634369069912578119499809931166571906948352505588786907304532649558408599364600601372336431353398348577248470422359166681699460820044918150482370605561040181204791757391307625725086072553026033065781384621597329680382960709966104420891270613893160362451091068489611323828079281142737278508154355534098827286629826914817202054904597836826374519615874852541802599674879300825616614430321114032972009401935978726053433399432919385110535761801931955975287323224650793274738762782358920903365889112011898666080200356683371658244436622998361666180937329145178230860640278137274932453548630497008997032069225553304170335590671891519235298584527241923674662117244967478496967238485663490885419356406906315651781098313458394053233451879665983094308034990043654555376900539577588185341994471452092982375579350292947474147259438253223968639963493268422687246158605029864754751454613543419621530675409320050030615072122133156635024083015874553387284611505745828140164821693036837952868117977184128447447300309239859343391672519037638136448985188791231464337843715437488698830137590593320273907837588272173688837741367320422225561505427983692648968650530304171699356466968440466180014558746860906020846905800029999781783539156127

/-- Table entry at level 8192 (an 8192-bit prime). -/
def prime8192 : Nat := 971393324664028441120143035296010671538821511874802257524652635011822316720244854189901918102376197473145387489263340690126379500669472089342508957915147741435847913328520879553388504518210567686108935652999591713311168340991366982000975886551413399209714512818007110289624860323110957178652295085093148735201703923800849883504448552096534966445321920029869335514140388855086830924095053643924684362222720427762100006848224251835735661805480468164973881656562426213998896782362586810941545642862040434285347079222515507555684208245773724448842745169485199583852312686298202905506721175962662361300670112822075772640029712260303176103837472924598345173454897764788813729923170323256485172956310829999858055432575324807657860658763948321110657490180500552276303611241359089090883299120992870061829501402547968696490219043347100069299882207251497971607128063502202658375121430972685367442556904254108512012311582318977472979191888663865970063228848333170574792252342430665243091520491481319260536791866156923301505054738958610030120536486401230410228403260405134257092785088810365728289318306948251031141810702683131496516523127285299976526165731128181516047116446215140078601271986026614465580233878356061798612785504916029651081918737124677552803093708847085097118473352674700067729284191836510484387718410180885566232232971135443008212894884732677542975411894798854463072794704358124050004265848313852834941202588415972756482146175078089193160059089155241693672978737874091824788175683911794323624553064472757960779937038516442254941403276698906427947557123581705625024583123183748780963607750766284098511669949950943085001782244670614998259136065943032822865623955583957630892364913346570023994827414400713096067909292376014383469684249812530270609136382537502759881794072247978757517670465935416466361515989507564078678479665371697488843739378684875448783466822045413308129674668766036379801103107821980371379560365164862074616470287523454543257258223458215503190474676336622332578454374659865727031915470076766310108774845444856336251373372733567696997192235138966053617112862511287144382241075438773998213994666380504000649095044107411353795518554437533307042647779358043966234308238432166422043629641820742553137785418830085346173350867964930075858828364160525456413978793439063904734120061700343929982922607705285856539244101738164572067361502826150261351738158274705000975437493325344815787851239983663332186320567560276135395916116378543176155660182712824907

/-- The fixed prime table of `primes.py` (`Primes._PRIMES`), keys in insertion
order, values decoded from their base64 representation. -/
def PRIMES : List (Nat × Nat) :=
  [(128, prime128), (256, prime256), (512, prime512), (1024, prime1024),
   (2048, prime2048), (4096, prime4096), (8192, prime8192)]

/-- The table's keys in iteration order. -/
def keys : List Nat := PRIMES.map Prod.fst

/-- `Primes.get`: exact dictionary lookup. -/
def get (bits : Nat) : Option Nat := PRIMES.lookup bits

/-- `Primes.min_bits`: the minimum of the table keys. -/
def min_bits : Nat := (keys.min?).getD 0

/-- `Primes.max_bits`: the maximum of the table keys. -/
def max_bits : Nat := (keys.max?).getD 0

/-- Convenience: the prime stored at level `L` (`(get L).getD 0`); `0` for a
level outside the table (Python's falsy `None`). -/
def primeAt (L : Nat) : Nat := (get L).getD 0

/-- `Primes.get_closest_bits(bits=...)`: first table key `≥ bits` in iteration
order, `none` if the loop finds none. -/
def get_closest_bits (bits : Nat) : Option Nat :=
  keys.find? (fun b => decide (bits ≤ b))

/-- `Primes.get_closest_bits(num=...)`: look up the level matching the bit
length of `num`; if the prime there is not strictly bigger than `num`, retry
in `bits` mode with twice that level. -/
def get_closest_bits_num (num : Nat) : Option Nat :=
  match get_closest_bits (bit_length num) with
  | none => none
  | some gb =>
    let prime := primeAt gb
    if prime ≠ 0 ∧ num < prime then some gb
    else get_closest_bits (gb * 2)

/-- `Primes.get_closest(bits=...)`: prime at `get_closest_bits(bits)`
(`cls.get(None)` is `None` in Python, modelled by propagating `none`). -/
def get_closest (bits : Nat) : Option Nat :=
  match get_closest_bits bits with
  | none => none
  | some b => get b

/-- The retry loop of `Primes.random_int`: keep drawing while the sample is
strictly greater than `prime`; the draw oracle is an explicit list, `none`
models exhausting it (the Python loop would keep drawing). -/
def randLoop (prime : Nat) : List Nat → Option Nat
  | [] => none
  | d :: ds => if prime < d then randLoop prime ds else some d

/-- `Primes.random_int(bits)` with the `passphrase.random.randint` collaborator
replaced by an explicit list of draws. -/
def random_int (bits : Nat) (draws : List Nat) : Except String (Option Nat) :=
  if bits < min_bits then .error "bits must be bigger or equal than min_bits"
  else if max_bits < bits then .error "bits must be lower than max_bits"
  else
    let prime := (get_closest bits).getD 0
    .ok (randLoop prime draws)

/-- Modelled from the spec's words, for comparison with the code (claim C8):
"the smallest table level whose prime is strictly greater than num". -/
def spec_closest_level_by_prime (num : Nat) : Option Nat :=
  keys.find? (fun b => decide (num < primeAt b))

end Primes

theorem find?_min_sorted (p : Nat → Bool) :
    ∀ (l : List Nat), l.Pairwise (· ≤ ·) →
      ∀ k, l.find? p = some k →
        p k = true ∧ k ∈ l ∧ ∀ m ∈ l, p m = true → k ≤ m := by
  intro l
  induction l with
  | nil => intro _ k h; simp [List.find?] at h
  | cons a t ih =>
    intro hp k hfind
    obtain ⟨ha, ht⟩ := List.pairwise_cons.mp hp
    by_cases hpa : p a = true
    · rw [List.find?_cons_of_pos _ hpa] at hfind
      obtain rfl : a = k := by simpa using hfind
      refine ⟨hpa, by simp, ?_⟩
      intro m hm _
      rcases List.mem_cons.mp hm with rfl | hmt
      · exact le_rfl
      · exact ha m hmt
    · rw [List.find?_cons_of_neg _ hpa] at hfind
      obtain ⟨h1, h2, h3⟩ := ih ht k hfind
      refine ⟨h1, by simp [h2], ?_⟩
      intro m hm hpm
      rcases List.mem_cons.mp hm with rfl | hmt
      · exact absurd hpm hpa
      · exact h3 m hmt hpm

theorem primes_keys_sorted : Primes.keys.Pairwise (· ≤ ·) := by decide

theorem primes_keys_le : ∀ k ∈ Primes.keys, k ≤ 8192 := by decide

theorem primes_keys_ge : ∀ k ∈ Primes.keys, 128 ≤ k := by decide

theorem primes_keys_gap :
    ∀ a ∈ Primes.keys, ∀ b ∈ Primes.keys, a < b → 2 * a ≤ b := by decide

theorem primes_keys_double :
    ∀ k ∈ Primes.keys, k ≠ 8192 → 2 * k ∈ Primes.keys := by decide

theorem primes_primeAt_pos : ∀ k ∈ Primes.keys, 0 < Primes.primeAt k := by
  decide

theorem primes_primeAt_lb :
    ∀ k ∈ Primes.keys, 2 ^ (k - 1) ≤ Primes.primeAt k := by
  intro k hk
  have hk2 : k ∈ ([128, 256, 512, 1024, 2048, 4096, 8192] : List Nat) := hk
  fin_cases hk2
  · norm_num [show Primes.primeAt 128 = Primes.prime128 from rfl, Primes.prime128]
  · norm_num [show Primes.primeAt 256 = Primes.prime256 from rfl, Primes.prime256]
  · norm_num [show Primes.primeAt 512 = Primes.prime512 from rfl, Primes.prime512]
  · norm_num [show Primes.primeAt 1024 = Primes.prime1024 from rfl, Primes.prime1024]
  · norm_num [show Primes.primeAt 2048 = Primes.prime2048 from rfl, Primes.prime2048]
  · norm_num [show Primes.primeAt 4096 = Primes.prime4096 from rfl, Primes.prime4096]
  · norm_num [show Primes.primeAt 8192 = Primes.prime8192 from rfl, Primes.prime8192]

theorem primes_get_eq : ∀ k ∈ Primes.keys, Primes.get k = some (Primes.primeAt k) := by
  decide

theorem get_closest_bits_some (bits k : Nat)
    (h : Primes.get_closest_bits bits = some k) :
    k ∈ Primes.keys ∧ bits ≤ k ∧ ∀ m ∈ Primes.keys, bits ≤ m → k ≤ m := by
  have hm := find?_min_sorted _ Primes.keys primes_keys_sorted k h
  refine ⟨hm.2.1, by simpa using hm.1, fun m hmk hbm => hm.2.2 m hmk (by simpa)⟩

theorem get_closest_bits_none (bits : Nat) :
    Primes.get_closest_bits bits = none ↔ 8192 < bits := by
  rw [Primes.get_closest_bits, List.find?_eq_none]
  constructor
  · intro h
    have h8 : (8192 : Nat) ∈ Primes.keys := by decide
    have := h 8192 h8
    simp at this
    omega
  · intro h x hx
    have := primes_keys_le x hx
    simp
    omega


theorem gcbn_some_charact (num : Nat) :
    ∀ L, Primes.get_closest_bits_num num = some L →
      L ∈ Primes.keys ∧ bit_length num ≤ L ∧ num < Primes.primeAt L ∧
      ∀ m ∈ Primes.keys, bit_length num ≤ m → num < Primes.primeAt m →
        L ≤ m := by
  intro L hL
  rcases hcb : Primes.get_closest_bits (bit_length num) with _ | gb
  · unfold Primes.get_closest_bits_num at hL
    rw [hcb] at hL
    exact absurd hL (by simp)
  · obtain ⟨hgbmem, hblgb, hgbmin⟩ := get_closest_bits_some _ _ hcb
    have hp0 : 0 < Primes.primeAt gb := primes_primeAt_pos gb hgbmem
    have hnum_lt : num < 2 ^ bit_length num := lt_two_pow_bit_length num
    have hiff : ¬ num < Primes.primeAt gb →
        ∀ m ∈ Primes.keys, bit_length num ≤ m →
          (num < Primes.primeAt m ↔ 2 * gb ≤ m) := by
      intro hnot m hm hblm
      constructor
      · intro hlt
        have hne : m ≠ gb := by
          intro h; rw [h] at hlt; exact hnot hlt
        have hgem : gb ≤ m := hgbmin m hm hblm
        exact primes_keys_gap gb hgbmem m hm (lt_of_le_of_ne hgem (Ne.symm hne))
      · intro h2m
        have hm1 : bit_length num ≤ m - 1 := by
          have := primes_keys_ge m hm
          have := primes_keys_ge gb hgbmem
          omega
        calc num < 2 ^ bit_length num := hnum_lt
          _ ≤ 2 ^ (m - 1) := Nat.pow_le_pow_right (by norm_num) hm1
          _ ≤ Primes.primeAt m := primes_primeAt_lb m hm
    by_cases hlt : num < Primes.primeAt gb
    · have hres : Primes.get_closest_bits_num num = some gb := by
        unfold Primes.get_closest_bits_num
        rw [hcb]
        simp only []
        rw [if_pos ⟨by omega, hlt⟩]
      rw [hres] at hL
      obtain rfl : gb = L := by simpa using hL
      exact ⟨hgbmem, hblgb, hlt, fun m hm hblm _ => hgbmin m hm hblm⟩
    · have hres : Primes.get_closest_bits_num num =
          Primes.get_closest_bits (2 * gb) := by
        unfold Primes.get_closest_bits_num
        rw [hcb]
        simp only []
        rw [if_neg]
        · rw [Nat.mul_comm gb 2]
        · rintro ⟨-, hc⟩; exact hlt hc
      rw [hres] at hL
      obtain ⟨hLmem, h2L, hLmin⟩ := get_closest_bits_some _ _ hL
      have hblL : bit_length num ≤ L := by omega
      refine ⟨hLmem, hblL, (hiff hlt L hLmem hblL).mpr h2L, ?_⟩
      intro m hm hblm hltm
      exact hLmin m hm ((hiff hlt m hm hblm).mp hltm)

theorem gcbn_none_charact (num : Nat) :
    Primes.get_closest_bits_num num = none ↔
      ∀ m ∈ Primes.keys, bit_length num ≤ m → Primes.primeAt m ≤ num := by
  rcases hcb : Primes.get_closest_bits (bit_length num) with _ | gb
  · have hbig : 8192 < bit_length num := (get_closest_bits_none _).mp hcb
    have hres : Primes.get_closest_bits_num num = none := by
      unfold Primes.get_closest_bits_num
      rw [hcb]
    rw [hres]
    simp only [true_iff]
    intro m hm hblm
    have := primes_keys_le m hm
    omega
  · obtain ⟨hgbmem, hblgb, hgbmin⟩ := get_closest_bits_some _ _ hcb
    have hp0 : 0 < Primes.primeAt gb := primes_primeAt_pos gb hgbmem
    have hnum_lt : num < 2 ^ bit_length num := lt_two_pow_bit_length num
    by_cases hlt : num < Primes.primeAt gb
    · have hres : Primes.get_closest_bits_num num = some gb := by
        unfold Primes.get_closest_bits_num
        rw [hcb]
        simp only []
        rw [if_pos ⟨by omega, hlt⟩]
      rw [hres]
      constructor
      · intro h; exact absurd h (by simp)
      · intro hall
        have := hall gb hgbmem hblgb
        omega
    · have hres : Primes.get_closest_bits_num num =
          Primes.get_closest_bits (2 * gb) := by
        unfold Primes.get_closest_bits_num
        rw [hcb]
        simp only []
        rw [if_neg]
        · rw [Nat.mul_comm gb 2]
        · rintro ⟨-, hc⟩; exact hlt hc
      rw [hres, get_closest_bits_none]
      constructor
      · intro hbig m hm hblm
        by_cases hme : m = gb
        · subst hme; omega
        · have hgem : gb ≤ m := hgbmin m hm hblm
          have h2 := primes_keys_gap gb hgbmem m hm
            (lt_of_le_of_ne hgem (Ne.symm hme))
          have := primes_keys_le m hm
          omega
      · intro hall
        by_contra hsmall
        push_neg at hsmall
        have hgbne : gb ≠ 8192 := by omega
        have hdm : 2 * gb ∈ Primes.keys := primes_keys_double gb hgbmem hgbne
        have hbl2 : bit_length num ≤ 2 * gb := by omega
        have h1 := hall (2 * gb) hdm hbl2
        have hm1 : bit_length num ≤ 2 * gb - 1 := by
          have := primes_keys_ge gb hgbmem
          omega
        have h2 : num < Primes.primeAt (2 * gb) :=
          calc num < 2 ^ bit_length num := hnum_lt
            _ ≤ 2 ^ (2 * gb - 1) := Nat.pow_le_pow_right (by norm_num) hm1
            _ ≤ Primes.primeAt (2 * gb) := primes_primeAt_lb _ hdm
        omega

/-- C8 (amended): in `bits` mode, `get_closest_bits` returns the smallest table
level `≥ bits` (`none` iff `bits` exceeds the largest level 8192); in `num`
mode it returns the smallest table level `L` such that `L ≥ num.bit_length()`
**and** the prime at `L` strictly exceeds `num`, or `none` when no level
satisfies both conditions. -/
theorem C8_get_closest_bits_charact (bits num : Nat) :
    (∀ k, Primes.get_closest_bits bits = some k →
        k ∈ Primes.keys ∧ bits ≤ k ∧ ∀ m ∈ Primes.keys, bits ≤ m → k ≤ m) ∧
    (Primes.get_closest_bits bits = none ↔ 8192 < bits) ∧
    (∀ L, Primes.get_closest_bits_num num = some L →
        L ∈ Primes.keys ∧ bit_length num ≤ L ∧ num < Primes.primeAt L ∧
        ∀ m ∈ Primes.keys, bit_length num ≤ m → num < Primes.primeAt m →
          L ≤ m) ∧
    (Primes.get_closest_bits_num num = none ↔
        ∀ m ∈ Primes.keys, bit_length num ≤ m → Primes.primeAt m ≤ num) :=
  ⟨fun k h => get_closest_bits_some bits k h, get_closest_bits_none bits,
    gcbn_some_charact num, gcbn_none_charact num⟩

/-- C8 witness: at `num = 1000` the characterization instantiates to the
spec's example, returning level 128. -/
theorem C8_witness :
    Primes.get_closest_bits_num 1000 = some 128 ∧
    128 ∈ Primes.keys ∧ bit_length 1000 ≤ 128 ∧ 1000 < Primes.primeAt 128 :=
  have h := ((C8_get_closest_bits_charact 1000 1000).2.2.1) 128 (by decide)
  ⟨by decide, h.1, h.2.1, h.2.2.1⟩

set_option maxRecDepth 8000 in
/-- C8 counterexample: at `num = 2^128` the table level with the smallest
prime strictly greater than `num` is 128 (its prime is `2^128 + 51`), but
`get_closest_bits(num=2^128)` returns 256, because the code only ever
considers levels at least the bit length of `num` (here 129). -/
theorem C8_counterexample :
    Primes.spec_closest_level_by_prime (2 ^ 128) = some 128 ∧
    Primes.get_closest_bits_num (2 ^ 128) = some 256 ∧
    (128 : Nat) ≠ 256 :=
  ⟨by decide, by decide, by decide⟩

theorem randLoop_le (prime : Nat) :
    ∀ (ds : List Nat) (v : Nat), Primes.randLoop prime ds = some v → v ≤ prime := by
  intro ds
  induction ds with
  | nil => intro v h; exact absurd h (by simp [Primes.randLoop])
  | cons d t ih =>
    intro v h
    rw [Primes.randLoop] at h
    by_cases hd : prime < d
    · rw [if_pos hd] at h
      exact ih v h
    · rw [if_neg hd] at h
      obtain rfl : d = v := by simpa using h
      omega

theorem primes_min_bits_eq : Primes.min_bits = 128 := by decide

theorem primes_max_bits_eq : Primes.max_bits = 8192 := by decide

/-- C7 (amended): for `bits` inside `[min_bits, max_bits]`, `random_int`
resolves the closest table prime and only ever returns a sample that is
**at most** that prime (draws strictly greater are rejected and redrawn);
for `bits` outside the interval it fails with an error. -/
theorem C7_random_int_le_prime (bits : Nat) (draws : List Nat) :
    (Primes.min_bits ≤ bits → bits ≤ Primes.max_bits →
      ∃ p, Primes.get_closest bits = some p ∧
        Primes.random_int bits draws = .ok (Primes.randLoop p draws) ∧
        ∀ v, Primes.randLoop p draws = some v → v ≤ p) ∧
    ((bits < Primes.min_bits ∨ Primes.max_bits < bits) →
      ∃ e, Primes.random_int bits draws = .error e) := by
  constructor
  · intro hmin hmax
    rw [primes_min_bits_eq] at hmin
    rw [primes_max_bits_eq] at hmax
    have hne : Primes.get_closest_bits bits ≠ none := by
      rw [Ne, get_closest_bits_none]
      omega
    rcases hcb : Primes.get_closest_bits bits with _ | gb
    · exact absurd hcb hne
    obtain ⟨hgbmem, -, -⟩ := get_closest_bits_some _ _ hcb
    have hget : Primes.get gb = some (Primes.primeAt gb) := primes_get_eq gb hgbmem
    have hclosest : Primes.get_closest bits = some (Primes.primeAt gb) := by
      unfold Primes.get_closest
      rw [hcb]
      exact hget
    refine ⟨Primes.primeAt gb, hclosest, ?_, randLoop_le _ draws⟩
    unfold Primes.random_int
    rw [if_neg (by rw [primes_min_bits_eq]; omega),
      if_neg (by rw [primes_max_bits_eq]; omega), hclosest]
    rfl
  · intro hout
    unfold Primes.random_int
    by_cases h1 : bits < Primes.min_bits
    · exact ⟨_, by rw [if_pos h1]⟩
    · have h2 : Primes.max_bits < bits := by tauto
      exact ⟨_, by rw [if_neg h1, if_pos h2]⟩

/-- C7 witness: `bits = 128` with a single draw of `0` is accepted and the
bound instantiates concretely. -/
theorem C7_witness :
    ∃ p, Primes.get_closest 128 = some p ∧
      Primes.random_int 128 [0] = .ok (Primes.randLoop p [0]) ∧
      ∀ v, Primes.randLoop p [0] = some v → v ≤ p :=
  (C7_random_int_le_prime 128 [0]).1 (by decide) (by decide)

set_option maxRecDepth 8000 in
/-- C7 counterexample: the retry loop only rejects draws strictly greater
than the prime, so a draw equal to the prime itself (possible for the
1024-bit table entry, which is below `2^1024`) is accepted and returned:
the result is not strictly less than the closest prime. -/
theorem C7_counterexample :
    Primes.get_closest 1024 = some Primes.prime1024 ∧
    Primes.prime1024 < 2 ^ 1024 ∧
    Primes.random_int 1024 [Primes.prime1024] = .ok (some Primes.prime1024) ∧
    ¬ Primes.prime1024 < Primes.prime1024 :=
  ⟨by decide, by decide, by rfl, by decide⟩

/-- `calc._product`: multiplicative reduction with identity 1
(`reduce(mul, values, 1)`). -/
def product (values : List Int) : Int := values.foldl (fun a b => a * b) 1

/-- The loop of `calc._extended_gcd`, with an explicit fuel argument that only
drives termination (the second Euclid argument `b` strictly decreases, so
`b + 1` units of fuel always suffice; see `extGcdLoop_fuel_irrelevant`).
State `(a, b, x, lx, y, ly)` mirrors the Python locals
`(a, b, x, last_x, y, last_y)`; Python `//` and `%` on a positive divisor are
`Int.ediv`/`Int.emod`, Lean's `/` and `%`. -/
def extGcdLoop : Nat → Int → Nat → Int → Int → Int → Int → Int × Int
  | 0, _, _, _, lx, _, ly => (lx, ly)
  | fuel+1, a, b, x, lx, y, ly =>
    if b = 0 then (lx, ly)
    else
      let quot := a / (b : Int)
      extGcdLoop fuel (b : Int) (a % (b : Int)).toNat
        (lx - quot * x) x (ly - quot * y) y

/-- `calc._extended_gcd(a, b)` for a nonnegative second argument (the package
only ever calls it with `b = prime ≥ 2`): returns the Bézout coefficients
`(last_x, last_y)`. -/
def extended_gcd (a : Int) (b : Nat) : Int × Int :=
  extGcdLoop (b + 1) a b 0 1 1 0

/-- The value computed by `calc._divmod` once its `prime ≥ 2` check has
passed: `num * inv` where `inv` is the first Bézout coefficient —
note: **not** reduced modulo `prime`. -/
def divmodVal (num den : Int) (prime : Nat) : Int :=
  num * (extended_gcd den prime).1

/-- `calc._divmod(num, den, prime)`: fails when `prime < 2`, otherwise
returns the unreduced product `num * inv(den)`. -/
def divmod (num den prime : Int) : Except String Int :=
  if prime < 2 then .error "prime must be positive and prime"
  else .ok (divmodVal num den prime.toNat)

/-- The value computed by `calc.lagrange_interpolate` once its checks pass:
numerators and denominators of the Lagrange basis at `x` are accumulated as
exact integers and divided via `_divmod`. -/
def lagrangeVal (x : Int) (x_s y_s : List Int) (prime : Nat) : Int :=
  let k := x_s.length
  let nums := (List.range k).map
    (fun i => product ((x_s.eraseIdx i).map (fun o => x - o)))
  let dens := (List.range k).map
    (fun i => product ((x_s.eraseIdx i).map (fun o => x_s.getD i 0 - o)))
  let den := product dens
  let num := ((List.range k).map (fun i =>
      divmodVal ((nums.getD i 0 * den * y_s.getD i 0) % (prime : Int))
        (dens.getD i 0) prime)).sum
  (divmodVal num den prime + prime) % (prime : Int)

/-- `calc.lagrange_interpolate(x, x_s, y_s, prime)`: rejects `prime < 2`
(`ValueError`) and duplicated x-coordinates (the `assert`), otherwise computes
the interpolated value. -/
def lagrange_interpolate (x : Int) (x_s y_s : List Int) (prime : Int) :
    Except String Int :=
  if prime < 2 then .error "prime must be positive and prime"
  else if ¬ x_s.Nodup then .error "x_s points must be distinct"
  else .ok (lagrangeVal x x_s y_s prime.toNat)

/-- Fuel-driven ceiling base-2 logarithm: `ceilLog2F n n` computes
`⌈log₂ n⌉` (`= ceil(log2(n))` of the Python source) for `n ≥ 1`. -/
def ceilLog2F : Nat → Nat → Nat
  | 0, _ => 0
  | fuel+1, n => if n ≤ 1 then 0 else ceilLog2F fuel ((n + 1) / 2) + 1

/-- `calc.compute_closest_bigger_equal_pow2(value)`: `2` for `value < 3`,
otherwise `2 ** ceil(log2(value))` (the closest power of 2 `≥ value`). -/
def compute_closest_bigger_equal_pow2 (value : Nat) : Nat :=
  if value < 3 then 2 else 2 ^ ceilLog2F value value

/-- `calc.eval_poly_at_point` once its `prime ≥ 2` check has passed: Horner
evaluation, reducing mod `prime` at each step
(`accum = (accum * point + coeff) % prime`, coefficients from highest to
lowest degree). -/
def evalPolyVal (poly : List Int) (point : Nat) (prime : Nat) : Int :=
  poly.reverse.foldl (fun accum coeff => (accum * point + coeff) % (prime : Int)) 0

/-- `calc.eval_poly_at_point(poly, point, prime)` with its validation. -/
def eval_poly_at_point (poly : List Int) (point : Nat) (prime : Int) :
    Except String Int :=
  if prime < 2 then .error "prime must be positive and prime"
  else .ok (evalPolyVal poly point prime.toNat)

namespace Secretshare

/-- The small prime table of the `Primes` class defined inside
`secretshare.py` (distinct from the `primes.py` table): each prime is the
closest one bigger than `2^bits - 1`. -/
def Primes.PRIMES : List (Nat × Nat) :=
  [(8, 257), (16, 65537), (32, 4294967311), (64, 18446744073709551629),
   (128, 340282366920938463463374607431768211507),
   (256, 115792089237316195423570985008687907853269984665640564039457584007913129640233),
   (512, 2 ^ 521 - 1)]

/-- `secretshare.Primes.max_bits()`: the largest table key
(`sorted(keys)[-1]`). -/
def Primes.max_bits : Nat := ((Primes.PRIMES.map Prod.fst).max?).getD 0

/-- `secretshare.Primes.max_bytes()`: `max_bits() // 8`. -/
def Primes.max_bytes : Nat := Primes.max_bits / 8

/-- `secretshare.Primes.get(bits)`: exact dictionary lookup. -/
def Primes.get (bits : Nat) : Option Nat := Primes.PRIMES.lookup bits

/-- A share: a point and the polynomial value at that point (class `Share`
of `secretshare.py`). -/
structure Share where
  point : Nat
  value : Bytes
deriving DecidableEq

/-- `Share._get_max_point()`: `Primes.max_bits() - 1` (= 511). -/
def Share.maxPoint : Nat := Primes.max_bits - 1

/-- `Share._get_max_point_bytes_len()`: `ceil(max_point.bit_length() / 8)`
(= 2). -/
def Share.maxPointBytesLen : Nat := (bit_length Share.maxPoint + 7) / 8

/-- Validity enforced by the `Share.point` setter: an integer in
`[1, max_point]`. -/
def Share.PointValid (p : Nat) : Prop := 1 ≤ p ∧ p ≤ Share.maxPoint

instance : DecidablePred Share.PointValid := fun p =>
  inferInstanceAs (Decidable (1 ≤ p ∧ p ≤ Share.maxPoint))

/-- `Share.__bytes__`: the point in `maxPointBytesLen` big-endian bytes,
byte-reversed, concatenated with the value bytes. -/
def Share.toBytes (s : Share) : Bytes :=
  (toBytesBE Share.maxPointBytesLen s.point).reverse ++ s.value

/-- `Share.from_bytes`: split at the fixed point width, un-reverse and decode
the point (the `point` setter validates it), the rest is the value. -/
def Share.from_bytes (b : Bytes) : Except String Share :=
  let point := bytes_to_int (b.take Share.maxPointBytesLen).reverse
  if point < 1 then .error "point must be bigger than or equal to 1"
  else if Share.maxPoint < point then
    .error "point must be smaller than or equal to max_point"
  else .ok ⟨point, b.drop Share.maxPointBytesLen⟩

/-- The `Secret.value` setter of `secretshare.py`: rejects empty values,
a leading null byte, and values longer than `Primes.max_bytes()`. -/
def Secret.value_check (b : Bytes) : Except String Bytes :=
  if b = [] then .error "value can not be empty"
  else if b.headI = 0 then .error "value can not begin with a null byte"
  else if Primes.max_bytes < b.length then
    .error "value has to be smaller or equal than max_bytes"
  else .ok b

/-- The invariant guaranteed by the `Secret.value` setter, together with the
byte-string well-formedness that Python's `bytes` type provides for free. -/
def SecretValid (b : Bytes) : Prop :=
  ValidBytes b ∧ b ≠ [] ∧ b.headI ≠ 0 ∧ b.length ≤ Primes.max_bytes

instance : DecidablePred SecretValid := fun b =>
  inferInstanceAs (Decidable (ValidBytes b ∧ b ≠ [] ∧ b.headI ≠ 0 ∧
    b.length ≤ Primes.max_bytes))

/-- `Secret.from_int(n)`: `from_bytes(int_to_bytes(n))`, which runs the value
setter's validation. -/
def Secret.from_int (n : Nat) : Except String Bytes :=
  Secret.value_check (int_to_bytes n)

/-- The mutable state of a `SecretShare` engine: `threshold`, `share_count`,
the current secret (its stored bytes) and the held shares. -/
structure SecretShare where
  threshold : Nat
  share_count : Nat
  secret : Bytes
  shares : List Share
deriving DecidableEq

/-- The state invariant enforced by the engine's constructor/setters:
`threshold ≥ 2`, `share_count ≥ 2`, and a setter-valid secret. -/
def SecretShare.Valid (s : SecretShare) : Prop :=
  2 ≤ s.threshold ∧ 2 ≤ s.share_count ∧ SecretValid s.secret

instance : DecidablePred SecretShare.Valid := fun s =>
  inferInstanceAs (Decidable (2 ≤ s.threshold ∧ 2 ≤ s.share_count ∧
    SecretValid s.secret))

/-- `SecretShare.prime`: the table prime for
`compute_closest_bigger_equal_pow2(len(secret)) * 8` bits — sized to the
**currently stored secret** (`0` models Python's `None` for a failed
lookup, which cannot happen for setter-valid secrets). -/
def SecretShare.prime (s : SecretShare) : Nat :=
  (Primes.get (compute_closest_bigger_equal_pow2 s.secret.length * 8)).getD 0

/-- `SecretShare.poly`: the secret as the constant coefficient followed by
`threshold - 1` random coefficients, with the `randbelow(prime)` collaborator
replaced by a draw oracle. -/
def SecretShare.poly (s : SecretShare) (draws : Nat → Nat) : List Int :=
  (bytes_to_int s.secret : Int) ::
    (List.range (s.threshold - 1)).map (fun i => (draws i : Int))

/-- `SecretShare.max_share_count`: one less than the bit count of the field
selected for the current secret. -/
def SecretShare.max_share_count (s : SecretShare) : Nat :=
  compute_closest_bigger_equal_pow2 s.secret.length * 8 - 1

/-- `SecretShare.split()`: validations first (each failure leaves the state
untouched), then evaluate a fresh random polynomial at points
`1..share_count` and replace the held shares.  The `prime < 2` guard stands
for the `ValueError` that `eval_poly_at_point` would raise inside the loop
when the prime lookup failed (it fires before any state mutation, and never
for setter-valid states); `(evalPolyVal ...).toNat` is exact because Horner
reduction by a positive prime is nonnegative. -/
def SecretShare.split (s : SecretShare) (draws : Nat → Nat) :
    SecretShare × Except String (List Share) :=
  if s.max_share_count < s.share_count then
    (s, .error "share_count must be lower than max for the given secret")
  else if s.share_count < s.threshold then
    (s, .error "share_count must be bigger than or equal to threshold")
  else if s.prime < 2 then
    (s, .error "prime must be positive and prime")
  else
    let poly := s.poly draws
    let shares := (List.range' 1 s.share_count).map
      (fun i => Share.mk i (int_to_bytes (evalPolyVal poly i s.prime).toNat))
    ({s with shares := shares}, .ok shares)

/-- `SecretShare.combine()`: validations first, then Lagrange interpolation
at 0 over the held shares, wrapping the result as a new `Secret` that
replaces the engine's secret only on full success.
`lagrange_interpolate` carries the `prime ≥ 2` check and the distinctness
assert; `v.toNat` is exact since the interpolated value is a nonnegative
residue. -/
def SecretShare.combine (s : SecretShare) : SecretShare × Except String Bytes :=
  if s.shares.length < 2 then (s, .error "shares must have 2 or more Share")
  else if s.share_count < s.shares.length then
    (s, .error "shares can not be more than the share count")
  else
    match lagrange_interpolate 0 (s.shares.map (fun sh => (sh.point : Int)))
        (s.shares.map (fun sh => (bytes_to_int sh.value : Int))) (s.prime : Int) with
    | .error e => (s, .error e)
    | .ok v =>
      match Secret.from_int v.toNat with
      | .error e => (s, .error e)
      | .ok b => ({s with secret := b}, .ok b)

/-- The `SecretShare.secret` setter: it only replaces the stored secret
(after a type check that the model's types make vacuous). -/
def SecretShare.setSecret (s : SecretShare) (newSecret : Bytes) : SecretShare :=
  {s with secret := newSecret}

end Secretshare

namespace Secretshare

/-- The largest held share value (as an integer), `0` for an empty share
list. -/
def maxShareValue (s : SecretShare) : Nat :=
  ((s.shares.map (fun sh => bytes_to_int sh.value)).max?).getD 0

/-- Modelled from the spec's words, for comparison with the code (claim C4):
"the closest table prime strictly greater than the maximum of the held
shares' values" over the engine's table. -/
def specCombinePrime (s : SecretShare) : Option Nat :=
  (Primes.PRIMES.map Prod.snd).find? (fun p => decide (maxShareValue s < p))

end Secretshare

/-- C3 (amended): assigning a new secret through the `secret` setter replaces
only the stored secret; the held shares are left untouched (in particular a
non-empty share collection stays non-empty — it is **not** cleared). -/
theorem C3_setter_keeps_shares (s : Secretshare.SecretShare) (b : Bytes)
    (h : s.shares ≠ []) :
    (s.setSecret b).shares = s.shares ∧ (s.setSecret b).shares ≠ [] ∧
    (s.setSecret b).secret = b :=
  ⟨rfl, h, rfl⟩

/-- C3 witness: a concrete engine with one held share keeps it across a
secret reassignment. -/
theorem C3_witness :
    ((Secretshare.SecretShare.mk 2 3 [97] [Secretshare.Share.mk 1 [5]]).setSecret
        [98]).shares = [Secretshare.Share.mk 1 [5]] ∧
    ((Secretshare.SecretShare.mk 2 3 [97] [Secretshare.Share.mk 1 [5]]).setSecret
        [98]).shares ≠ [] :=
  have h := C3_setter_keeps_shares
    (Secretshare.SecretShare.mk 2 3 [97] [Secretshare.Share.mk 1 [5]]) [98]
    (by decide)
  ⟨h.1, h.2.1⟩

/-- C3 counterexample: the claim says the share collection is empty after the
assignment; on a concrete engine with one held share it is still that same
singleton list. -/
theorem C3_counterexample :
    (Secretshare.SecretShare.mk 2 3 [97] [Secretshare.Share.mk 1 [5]]).shares ≠ []
    ∧ ((Secretshare.SecretShare.mk 2 3 [97]
        [Secretshare.Share.mk 1 [5]]).setSecret [98]).shares
      = [Secretshare.Share.mk 1 [5]] :=
  ⟨by decide, rfl⟩

/-- C2: with `threshold = 3` but only 2 held shares, `combine()` does not
fail: it runs the interpolation on the 2 shares and silently replaces the
secret (the code validates `len(shares) >= 2`, not `>= threshold`). -/
theorem C2_combine_below_threshold :
    (Secretshare.SecretShare.mk 3 3 [97, 97]
        [Secretshare.Share.mk 1 [2], Secretshare.Share.mk 2 [1]]).shares.length
      < (Secretshare.SecretShare.mk 3 3 [97, 97]
        [Secretshare.Share.mk 1 [2], Secretshare.Share.mk 2 [1]]).threshold ∧
    (Secretshare.SecretShare.mk 3 3 [97, 97]
        [Secretshare.Share.mk 1 [2], Secretshare.Share.mk 2 [1]]).combine
      = (Secretshare.SecretShare.mk 3 3 [3]
          [Secretshare.Share.mk 1 [2], Secretshare.Share.mk 2 [1]], .ok [3]) :=
  ⟨by decide, by rfl⟩

/-- C4 (amended): the prime `combine()` hands to the interpolator is
`SecretShare.prime`, which is determined by the **currently stored secret**
(table prime at `compute_closest_bigger_equal_pow2(len(secret)) * 8` bits)
and does not depend on the held shares at all. -/
theorem C4_combine_prime_from_secret (s : Secretshare.SecretShare)
    (h : Secretshare.SecretValid s.secret) :
    Secretshare.Primes.get
        (compute_closest_bigger_equal_pow2 s.secret.length * 8) = some s.prime ∧
    ∀ sh2 : List Secretshare.Share,
      (Secretshare.SecretShare.mk s.threshold s.share_count s.secret sh2).prime
        = s.prime := by
  constructor
  · obtain ⟨-, hne, -, hlen⟩ := h
    have hlen1 : 1 ≤ s.secret.length := by
      cases hs : s.secret with
      | nil => exact absurd hs hne
      | cons a t => simp [hs]
    have hmax : Secretshare.Primes.max_bytes = 64 := by decide
    rw [hmax] at hlen
    have hkey : ∀ l : Nat, l < 65 → 1 ≤ l →
        (Secretshare.Primes.get
          (compute_closest_bigger_equal_pow2 l * 8)).isSome = true := by decide
    have := hkey s.secret.length (by omega) hlen1
    unfold Secretshare.SecretShare.prime
    rcases hg : Secretshare.Primes.get
        (compute_closest_bigger_equal_pow2 s.secret.length * 8) with _ | p
    · rw [hg] at this; exact absurd this (by simp)
    · simp [hg]
  · intro sh2
    rfl

/-- C4 witness: a concrete valid state instantiating the amended statement. -/
theorem C4_witness :
    Secretshare.Primes.get
        (compute_closest_bigger_equal_pow2
          (Secretshare.SecretShare.mk 2 3 [97, 97] []).secret.length * 8)
      = some (Secretshare.SecretShare.mk 2 3 [97, 97] []).prime :=
  (C4_combine_prime_from_secret (Secretshare.SecretShare.mk 2 3 [97, 97] [])
    (by decide)).1

/-- C4 counterexample: a state satisfying combine's preconditions whose held
shares carry values above 65537: the prime combine uses is still 65537 (sized
to the stored 2-byte secret), not the table prime closest above the largest
share value (4294967311). -/
theorem C4_counterexample :
    2 ≤ (Secretshare.SecretShare.mk 2 3 [97, 97]
        [Secretshare.Share.mk 1 [1, 134, 160],
         Secretshare.Share.mk 2 [1, 17, 112]]).shares.length ∧
    (Secretshare.SecretShare.mk 2 3 [97, 97]
        [Secretshare.Share.mk 1 [1, 134, 160],
         Secretshare.Share.mk 2 [1, 17, 112]]).shares.length ≤ 3 ∧
    (Secretshare.SecretShare.mk 2 3 [97, 97]
        [Secretshare.Share.mk 1 [1, 134, 160],
         Secretshare.Share.mk 2 [1, 17, 112]]).prime = 65537 ∧
    Secretshare.specCombinePrime
        (Secretshare.SecretShare.mk 2 3 [97, 97]
          [Secretshare.Share.mk 1 [1, 134, 160],
           Secretshare.Share.mk 2 [1, 17, 112]]) = some 4294967311 ∧
    (65537 : Nat) ≠ 4294967311 :=
  ⟨by decide, by decide, by decide, by decide, by decide⟩

/-- C5: encodings round-trip.  A setter-valid secret's byte form decodes to
the same secret; a share with a valid point in `[1, max_point]` and any byte
value is exactly recovered by `from_bytes(bytes(share))` (fixed-width
byte-reversed point prefix, value suffix). -/
theorem C5_encoding_roundtrip :
    (∀ b : Bytes, Secretshare.SecretValid b →
      Secretshare.Secret.value_check b = .ok b) ∧
    (∀ (p : Nat) (v : Bytes), Secretshare.Share.PointValid p →
      Secretshare.Share.from_bytes (Secretshare.Share.mk p v).toBytes
        = .ok (Secretshare.Share.mk p v)) := by
  constructor
  · rintro b ⟨hvb, hne, hhead, hlen⟩
    unfold Secretshare.Secret.value_check
    rw [if_neg hne, if_neg hhead, if_neg (by omega)]
  · rintro p v ⟨h1, hmaxp⟩
    have hmax : Secretshare.Share.maxPoint = 511 := by decide
    have hlen2 : Secretshare.Share.maxPointBytesLen = 2 := by decide
    rw [hmax] at hmaxp
    unfold Secretshare.Share.from_bytes Secretshare.Share.toBytes
    rw [hlen2]
    have hlenrev : (toBytesBE 2 p).reverse.length = 2 := by
      simp [toBytesBE_length]
    rw [List.take_left' hlenrev, List.drop_left' hlenrev, List.reverse_reverse,
      bytes_to_int_toBytesBE]
    have hmod : p % 256 ^ 2 = p := Nat.mod_eq_of_lt (by norm_num; omega)
    rw [hmod, if_neg (by omega), if_neg (by rw [hmax]; omega)]

/-- C5 witness: the share `(point 2, value b"acab")` from the package's test
suite encodes to `02 00 61 63 61 62` and decodes back to itself. -/
theorem C5_witness :
    Secretshare.Share.from_bytes
        (Secretshare.Share.mk 2 [97, 99, 97, 98]).toBytes
      = .ok (Secretshare.Share.mk 2 [97, 99, 97, 98]) ∧
    (Secretshare.Share.mk 2 [97, 99, 97, 98]).toBytes
      = [2, 0, 97, 99, 97, 98] :=
  ⟨(C5_encoding_roundtrip).2 2 [97, 99, 97, 98] (by decide), by rfl⟩

/-- C9: `split` and `combine` are atomic on the modelled state: every error
path returns the state unchanged, and on success exactly the held shares
(for `split`) or the stored secret (for `combine`) are replaced. -/
theorem C9_split_combine_atomic (s : Secretshare.SecretShare)
    (draws : Nat → Nat) :
    ((∃ e, (s.split draws).2 = .error e) → (s.split draws).1 = s) ∧
    (∀ l, (s.split draws).2 = .ok l →
      (s.split draws).1
        = Secretshare.SecretShare.mk s.threshold s.share_count s.secret l) ∧
    ((∃ e, s.combine.2 = .error e) → s.combine.1 = s) ∧
    (∀ b, s.combine.2 = .ok b →
      s.combine.1
        = Secretshare.SecretShare.mk s.threshold s.share_count b s.shares) := by
  refine ⟨?_, ?_, ?_, ?_⟩
  · rintro ⟨e, herr⟩
    by_cases h1 : s.max_share_count < s.share_count
    · simp [Secretshare.SecretShare.split, h1]
    by_cases h2 : s.share_count < s.threshold
    · simp [Secretshare.SecretShare.split, h1, h2]
    by_cases h3 : s.prime < 2
    · simp [Secretshare.SecretShare.split, h1, h2, h3]
    exfalso
    simp [Secretshare.SecretShare.split, h1, h2, h3] at herr
  · intro l hok
    by_cases h1 : s.max_share_count < s.share_count
    · exfalso; simp [Secretshare.SecretShare.split, h1] at hok
    by_cases h2 : s.share_count < s.threshold
    · exfalso; simp [Secretshare.SecretShare.split, h1, h2] at hok
    by_cases h3 : s.prime < 2
    · exfalso; simp [Secretshare.SecretShare.split, h1, h2, h3] at hok
    simp only [Secretshare.SecretShare.split, if_neg h1, if_neg h2,
      if_neg h3] at hok ⊢
    obtain rfl :
        (List.range' 1 s.share_count).map
          (fun i => Secretshare.Share.mk i
            (int_to_bytes (evalPolyVal (s.poly draws) i s.prime).toNat)) = l := by
      simpa using hok
    rfl
  · rintro ⟨e, herr⟩
    by_cases h1 : s.shares.length < 2
    · simp [Secretshare.SecretShare.combine, h1]
    by_cases h2 : s.share_count < s.shares.length
    · simp [Secretshare.SecretShare.combine, h1, h2]
    rcases hL : lagrange_interpolate 0
        (s.shares.map (fun sh => (sh.point : Int)))
        (s.shares.map (fun sh => (bytes_to_int sh.value : Int)))
        (s.prime : Int) with e1 | v
    · simp [Secretshare.SecretShare.combine, h1, h2, hL]
    rcases hS : Secretshare.Secret.from_int v.toNat with e2 | b2
    · simp [Secretshare.SecretShare.combine, h1, h2, hL, hS]
    exfalso
    simp [Secretshare.SecretShare.combine, h1, h2, hL, hS] at herr
  · intro b hok
    by_cases h1 : s.shares.length < 2
    · exfalso; simp [Secretshare.SecretShare.combine, h1] at hok
    by_cases h2 : s.share_count < s.shares.length
    · exfalso; simp [Secretshare.SecretShare.combine, h1, h2] at hok
    rcases hL : lagrange_interpolate 0
        (s.shares.map (fun sh => (sh.point : Int)))
        (s.shares.map (fun sh => (bytes_to_int sh.value : Int)))
        (s.prime : Int) with e1 | v
    · exfalso; simp [Secretshare.SecretShare.combine, h1, h2, hL] at hok
    rcases hS : Secretshare.Secret.from_int v.toNat with e2 | b2
    · exfalso; simp [Secretshare.SecretShare.combine, h1, h2, hL, hS] at hok
    simp only [Secretshare.SecretShare.combine, if_neg h1, if_neg h2, hL,
      hS] at hok ⊢
    obtain rfl : b2 = b := by simpa using hok
    rfl

/-- C9 witness: on a state with `threshold > share_count`, `split` fails and
leaves the state unchanged. -/
theorem C9_witness :
    ((Secretshare.SecretShare.mk 3 2 [97] []).split (fun _ => 0)).1
      = Secretshare.SecretShare.mk 3 2 [97] [] :=
  (C9_split_combine_atomic (Secretshare.SecretShare.mk 3 2 [97] [])
    (fun _ => 0)).1 ⟨"share_count must be bigger than or equal to threshold", by rfl⟩

/-- The plain Euclidean remainder loop tracking only `(a, b)`: the value the
extended loop's `a` holds when `b` reaches 0 (the gcd, for positive `b`). -/
def euclidLoop : Nat → Int → Nat → Int
  | 0, a, _ => a
  | fuel+1, a, b => if b = 0 then a else euclidLoop fuel (b : Int) ((a % (b : Int)).toNat)

theorem euclidLoop_zero (f : Nat) (a : Int) : euclidLoop f a 0 = a := by
  cases f <;> simp [euclidLoop]

theorem extGcdLoop_bezout (A B : Int) :
    ∀ (fuel b : Nat) (a x lx y ly : Int), b < fuel →
      lx * A + ly * B = a → x * A + y * B = (b : Int) →
      (extGcdLoop fuel a b x lx y ly).1 * A +
        (extGcdLoop fuel a b x lx y ly).2 * B = euclidLoop fuel a b := by
  intro fuel
  induction fuel with
  | zero => intro b a x lx y ly h; omega
  | succ f ih =>
    intro b a x lx y ly hb h1 h2
    by_cases hb0 : b = 0
    · subst hb0
      simp [extGcdLoop, euclidLoop, h1]
    · have hbposI : (0 : Int) < (b : Int) := by
        have : 0 < b := Nat.pos_of_ne_zero hb0
        exact_mod_cast this
      simp only [extGcdLoop, euclidLoop, if_neg hb0]
      have hmod_nonneg : 0 ≤ a % (b : Int) := Int.emod_nonneg a (by omega)
      have hmcast : (((a % (b : Int)).toNat : Int)) = a % (b : Int) :=
        Int.toNat_of_nonneg hmod_nonneg
      have hmb : (a % (b : Int)).toNat < b := by
        have := Int.emod_lt_of_pos a hbposI
        omega
      apply ih
      · omega
      · exact h2
      · rw [hmcast, Int.emod_def]
        have hq : a - (b : Int) * (a / (b : Int)) =
            (lx * A + ly * B) - (a / (b : Int)) * (x * A + y * B) := by
          rw [h1, h2]; ring
        rw [hq]; ring

theorem euclidLoop_gcd : ∀ (fuel b : Nat), b < fuel → 0 < b → ∀ a,
    euclidLoop fuel a b = (Int.gcd a b : Int) := by
  intro fuel
  induction fuel with
  | zero => intro b h; omega
  | succ f ih =>
    intro b hb hbpos a
    have hb0 : b ≠ 0 := by omega
    have hbposI : (0 : Int) < (b : Int) := by exact_mod_cast hbpos
    simp only [euclidLoop, if_neg hb0]
    have hmod_nonneg : 0 ≤ a % (b : Int) := Int.emod_nonneg a (by omega)
    have hmcast : (((a % (b : Int)).toNat : Int)) = a % (b : Int) :=
      Int.toNat_of_nonneg hmod_nonneg
    have hmb : (a % (b : Int)).toNat < b := by
      have := Int.emod_lt_of_pos a hbposI
      omega
    by_cases hm0 : (a % (b : Int)).toNat = 0
    · rw [hm0, euclidLoop_zero]
      have hdvd : (b : Int) ∣ a := Int.dvd_of_emod_eq_zero (by omega)
      rw [Int.gcd_eq_right hdvd]
      simp
    · rw [ih _ (by omega) (by omega) (b : Int)]
      congr 1
      rw [show Int.gcd (b : Int) (((a % (b : Int)).toNat : Int)) =
          Int.gcd (b : Int) (a % (b : Int)) by rw [hmcast]]
      -- gcd is invariant under taking the remainder: antisymmetry of dvd
      apply Nat.dvd_antisymm
      · have h1 : ((Int.gcd (b : Int) (a % (b : Int)) : Nat) : Int) ∣ (b : Int) :=
          Int.gcd_dvd_left
        have h2 : ((Int.gcd (b : Int) (a % (b : Int)) : Nat) : Int) ∣ a % (b : Int) :=
          Int.gcd_dvd_right
        have h3 : ((Int.gcd (b : Int) (a % (b : Int)) : Nat) : Int) ∣ a := by
          have heq := Int.emod_add_ediv a (b : Int)
          calc ((Int.gcd (b : Int) (a % (b : Int)) : Nat) : Int)
              ∣ a % (b : Int) + (b : Int) * (a / (b : Int)) :=
                dvd_add h2 (h1.mul_right _)
            _ = a := heq
        exact Int.natCast_dvd_natCast.mp (Int.dvd_gcd h3 h1)
      · have h1 : ((Int.gcd a (b : Int) : Nat) : Int) ∣ a := Int.gcd_dvd_left
        have h2 : ((Int.gcd a (b : Int) : Nat) : Int) ∣ (b : Int) := Int.gcd_dvd_right
        have h3 : ((Int.gcd a (b : Int) : Nat) : Int) ∣ a % (b : Int) := by
          rw [Int.emod_def]
          exact dvd_sub h1 (h2.mul_right _)
        exact Int.natCast_dvd_natCast.mp (Int.dvd_gcd h2 h3)

/-- Bézout identity for the source's `_extended_gcd` with a positive second
argument. -/
theorem extended_gcd_bezout (a : Int) (b : Nat) (hb : 0 < b) :
    (extended_gcd a b).1 * a + (extended_gcd a b).2 * b = (Int.gcd a b : Int) := by
  have h := extGcdLoop_bezout a (b : Int) (b + 1) b a 0 1 1 0 (by omega)
    (by ring) (by ring)
  unfold extended_gcd
  rw [h, euclidLoop_gcd (b + 1) b (by omega) hb a]

/-- For a prime modulus not dividing the denominator, `_divmod`'s (unreduced)
result satisfies the congruence its docstring promises:
`den * _divmod(num, den, p) ≡ num (mod p)`. -/
theorem divmodVal_mul_den (num den : Int) (p : Nat) (hp : p.Prime)
    (hden : ¬ (p : Int) ∣ den) :
    (den * divmodVal num den p) % (p : Int) = num % (p : Int) := by
  have hpI : Prime (p : Int) := by
    rw [Int.prime_iff_natAbs_prime]
    simpa using hp
  have hgcd : Int.gcd den (p : Int) = 1 := by
    rw [Int.gcd_eq_one_iff_coprime]
    exact ((hpI.coprime_iff_not_dvd).mpr hden).symm
  have hbez := extended_gcd_bezout den p hp.pos
  rw [hgcd] at hbez
  have hkey : den * divmodVal num den p
      = num + (-(num * (extended_gcd den p).2)) * (p : Int) := by
    unfold divmodVal
    linear_combination num * hbez
  rw [hkey, Int.add_mul_emod_self]

/-- In `ZMod p`, `_divmod` computes multiplication by the inverse of the
denominator. -/
theorem divmodVal_zmod (num den : Int) (p : Nat) [Fact p.Prime]
    (hden : (den : ZMod p) ≠ 0) :
    ((divmodVal num den p : Int) : ZMod p) = (num : ZMod p) * (den : ZMod p)⁻¹ := by
  have hp : p.Prime := Fact.out
  have hdvd : ¬ (p : Int) ∣ den := by
    intro h
    exact hden ((ZMod.intCast_zmod_eq_zero_iff_dvd den p).mpr h)
  have hcong := divmodVal_mul_den num den p hp hdvd
  have hcast : ((den * divmodVal num den p : Int) : ZMod p) = ((num : Int) : ZMod p) :=
    (ZMod.intCast_eq_intCast_iff _ _ _).mpr hcong
  push_cast at hcast
  calc ((divmodVal num den p : Int) : ZMod p)
      = (den : ZMod p)⁻¹ * ((den : ZMod p) * ((divmodVal num den p : Int) : ZMod p)) := by
        rw [← mul_assoc, inv_mul_cancel₀ hden, one_mul]
    _ = (den : ZMod p)⁻¹ * (num : ZMod p) := by rw [hcast]
    _ = (num : ZMod p) * (den : ZMod p)⁻¹ := mul_comm _ _

/-- C6 (amended): for a **prime** modulus `p ≥ 2` and a denominator not
divisible by it, `_divmod(num, den, p)` succeeds and returns `num` times the
first Bézout coefficient of `_extended_gcd(den, p)` — an integer `r`
satisfying `den * r ≡ num (mod p)` (but not reduced into `[0, p)`); for a
modulus below 2 it fails with an error. -/
theorem C6_divmod_congruence (num den : Int) (p : Nat) (hp : p.Prime)
    (hden : ¬ (p : Int) ∣ den) :
    (∃ r, divmod num den (p : Int) = .ok r ∧
      (den * r) % (p : Int) = num % (p : Int)) ∧
    (∀ q : Int, q < 2 → ∃ e, divmod num den q = .error e) := by
  constructor
  · refine ⟨divmodVal num den p, ?_, divmodVal_mul_den num den p hp hden⟩
    unfold divmod
    rw [if_neg (by exact_mod_cast not_lt.mpr hp.two_le)]
    rw [Int.toNat_natCast]
  · intro q hq
    exact ⟨_, by unfold divmod; rw [if_pos hq]⟩

/-- C6 witness: `p = 7`, `den = 2`, `num = 3`: the congruence instantiates
concretely. -/
theorem C6_witness :
    ∃ r, divmod 3 2 ((7 : Nat) : Int) = .ok r ∧
      ((2 : Int) * r) % ((7 : Nat) : Int) = (3 : Int) % ((7 : Nat) : Int) :=
  (C6_divmod_congruence 3 2 7 (by norm_num) (by decide)).1

/-- C6 counterexample: the claim's "reduced mod prime / result in `[0, prime)`"
part is false — `_divmod(10, 1, 7) = 10`; and with the claim's hypotheses
(any modulus `≥ 2`, denominator not divisible by it) even the congruence
fails: `_divmod(1, 2, 4) = 1` but `2 * 1 ≢ 1 (mod 4)` (and `4 ∤ 2`). -/
theorem C6_counterexample :
    (divmod 10 1 7 = .ok 10 ∧ ¬ ((10 : Int) < 7)) ∧
    (divmod 1 2 4 = .ok 1 ∧ ¬ ((4 : Int) ∣ 2) ∧
      ((2 : Int) * 1) % 4 ≠ (1 : Int) % 4) :=
  ⟨⟨by rfl, by decide⟩, by rfl, by decide, by decide⟩

theorem intCast_emod_zmod (a : Int) (p : Nat) :
    (((a % (p : Int)) : Int) : ZMod p) = (a : ZMod p) := by
  rw [Int.emod_def]
  push_cast [ZMod.natCast_self]
  ring

theorem product_eq_prod (l : List Int) : product l = l.prod := by
  rw [List.prod_eq_foldl]
  rfl

theorem map_prod_range {α : Type*} {M : Type*} [CommMonoid M] (g : α → M) (d : α)
    (l : List α) :
    (l.map g).prod = ∏ j in Finset.range l.length, g (l.getD j d) := by
  induction l with
  | nil => simp
  | cons a t ih =>
    rw [List.map_cons, List.prod_cons, List.length_cons,
      Finset.prod_range_succ']
    simp only [List.getD_cons_succ, List.getD_cons_zero]
    rw [← ih]
    exact (mul_comm _ _)

theorem getD_take {α : Type*} (l : List α) (d : α) (i j : Nat) (h : j < i) :
    (l.take i).getD j d = l.getD j d := by
  rw [List.getD_eq_getElem?_getD, List.getD_eq_getElem?_getD,
    List.getElem?_take_of_lt h]

theorem getD_drop {α : Type*} (l : List α) (d : α) (m j : Nat) :
    (l.drop m).getD j d = l.getD (m + j) d := by
  rw [List.getD_eq_getElem?_getD, List.getD_eq_getElem?_getD,
    List.getElem?_drop]

theorem map_take_prod {α : Type*} {M : Type*} [CommMonoid M] (g : α → M) (d : α)
    (l : List α) (i : Nat) (hi : i ≤ l.length) :
    ((l.take i).map g).prod = ∏ j in Finset.range i, g (l.getD j d) := by
  rw [map_prod_range g d]
  have hlen : (l.take i).length = i := by
    rw [List.length_take]; omega
  rw [hlen]
  exact Finset.prod_congr rfl fun j hj =>
    congrArg g (getD_take l d i j (Finset.mem_range.mp hj))

theorem map_drop_prod {α : Type*} {M : Type*} [CommMonoid M] (g : α → M) (d : α)
    (l : List α) (m : Nat) :
    ((l.drop m).map g).prod = ∏ j in Finset.Ico m l.length, g (l.getD j d) := by
  rw [map_prod_range g d, List.length_drop, Finset.prod_Ico_eq_prod_range]
  exact Finset.prod_congr rfl fun j hj => congrArg g (getD_drop l d m j)

theorem range_erase_eq_union (k i : Nat) (hik : i < k) :
    (Finset.range k).erase i
      = Finset.range i ∪ Finset.Ico (i + 1) k := by
  ext j
  simp only [Finset.mem_erase, Finset.mem_range, Finset.mem_union,
    Finset.mem_Ico]
  omega

theorem prod_range_erase {M : Type*} [CommMonoid M] (H : Nat → M) (k i : Nat)
    (hik : i < k) :
    ∏ j in (Finset.range k).erase i, H j
      = (∏ j in Finset.range i, H j) * ∏ j in Finset.Ico (i + 1) k, H j := by
  rw [range_erase_eq_union k i hik, Finset.prod_union]
  rw [Finset.disjoint_left]
  intro a ha hb
  simp only [Finset.mem_range] at ha
  simp only [Finset.mem_Ico] at hb
  omega

/-- The product over a list with index `i` erased equals the product over all
indices except `i`. -/
theorem map_eraseIdx_prod {α : Type*} {M : Type*} [CommMonoid M] (l : List α) (g : α → M)
    (d : α) (i : Nat) (hi : i < l.length) :
    ((l.eraseIdx i).map g).prod
      = ∏ j in (Finset.range l.length).erase i, g (l.getD j d) := by
  rw [List.eraseIdx_eq_take_drop_succ, List.map_append, List.prod_append,
    map_take_prod g d l i (by omega), map_drop_prod g d l (i + 1),
    prod_range_erase _ _ _ hi]

theorem map_sum_range (f : Nat → Int) (k : Nat) :
    ((List.range k).map f).sum = ∑ j in Finset.range k, f j := by
  induction k with
  | zero => simp
  | succ k ih =>
    rw [List.range_succ, List.map_append, List.sum_append,
      Finset.sum_range_succ, ih]
    have hone : (List.map f [k]).sum = f k := by simp
    rw [hone]

theorem range_map_getD (g : Nat → Int) (k i : Nat) (hi : i < k) :
    ((List.range k).map g).getD i 0 = g i := by
  have hlen : i < ((List.range k).map g).length := by simpa using hi
  rw [List.getD_eq_getElem _ _ hlen, List.getElem_map, List.getElem_range]

theorem map_getD {α : Type} (l : List α) (g : α → Int) (i : Nat) (d : α)
    (hi : i < l.length) :
    (l.map g).getD i 0 = g (l.getD i d) := by
  rw [List.getD_eq_getElem _ _ (by simpa using hi), List.getElem_map,
    List.getD_eq_getElem _ _ hi]

theorem prod_fin_erase {M : Type*} [CommMonoid M] (H : Nat → M) (k : Nat)
    (x : Fin k) :
    ∏ j in Finset.univ.erase x, H (j : Nat)
      = ∏ j in (Finset.range k).erase (x : Nat), H j := by
  have h1 : (Finset.range k).erase (x : Nat)
      = ((Finset.univ : Finset (Fin k)).erase x).map Fin.valEmbedding := by
    rw [Finset.map_erase, Fin.map_valEmbedding_univ, Nat.Iio_eq_range]
    rfl
  rw [h1, Finset.prod_map]
  rfl

/-- Horner evaluation over a commutative ring, matching the fold of
`eval_poly_at_point` without the modular reduction. -/
def hornerF {R : Type*} [CommRing R] (l : List R) (t : R) : R :=
  l.foldr (fun c acc => acc * t + c) 0

/-- Every Horner coefficient list is evaluated by a polynomial of degree
below its length. -/
theorem exists_poly_hornerF {R : Type*} [CommRing R] (l : List R) :
    ∃ f : Polynomial R, f.degree < (l.length : WithBot Nat) ∧
      ∀ t, Polynomial.eval t f = hornerF l t := by
  induction l with
  | nil =>
    refine ⟨0, ?_, fun t => by simp [hornerF]⟩
    simpa using WithBot.bot_lt_coe 0
  | cons c l ih =>
    obtain ⟨q, hqdeg, hqev⟩ := ih
    refine ⟨Polynomial.C c + Polynomial.X * q, ?_, fun t => ?_⟩
    · apply lt_of_le_of_lt (Polynomial.degree_add_le _ _)
      apply max_lt
      · apply lt_of_le_of_lt Polynomial.degree_C_le
        simp only [List.length_cons]
        exact_mod_cast WithBot.coe_lt_coe.mpr (Nat.succ_pos l.length)
      · apply lt_of_le_of_lt (Polynomial.degree_mul_le _ _)
        apply lt_of_le_of_lt (add_le_add_right Polynomial.degree_X_le _)
        calc (1 : WithBot Nat) + q.degree
            < 1 + (l.length : WithBot Nat) :=
              WithBot.add_lt_add_left (by simp) hqdeg
          _ = ((l.length + 1 : Nat) : WithBot Nat) := by
              rw [show (1 : WithBot Nat) = ((1 : Nat) : WithBot Nat) from rfl,
                ← Nat.cast_add, Nat.add_comm]
          _ = (((c :: l).length : Nat) : WithBot Nat) := by
              simp
    · rw [Polynomial.eval_add, Polynomial.eval_C, Polynomial.eval_mul,
        Polynomial.eval_X, hqev t]
      simp only [hornerF, List.foldr_cons]
      ring

theorem evalPolyVal_eq_foldr (poly : List Int) (point : Nat) (prime : Nat) :
    evalPolyVal poly point prime
      = poly.foldr (fun coeff accum => (accum * point + coeff) % (prime : Int)) 0 := by
  rw [evalPolyVal, List.foldl_reverse]

theorem evalPolyVal_bounds (poly : List Int) (point : Nat) (prime : Nat)
    (hp : 0 < prime) :
    0 ≤ evalPolyVal poly point prime ∧ evalPolyVal poly point prime < prime := by
  rw [evalPolyVal_eq_foldr]
  induction poly with
  | nil =>
    refine ⟨le_rfl, ?_⟩
    show (0 : Int) < (prime : Int)
    exact_mod_cast hp
  | cons c t ih =>
    simp only [List.foldr_cons]
    have hpI : (0 : Int) < (prime : Int) := by exact_mod_cast hp
    exact ⟨Int.emod_nonneg _ (by omega), Int.emod_lt_of_pos _ hpI⟩

theorem evalPolyVal_cast (poly : List Int) (point : Nat) (p : Nat) :
    ((evalPolyVal poly point p : Int) : ZMod p)
      = hornerF (poly.map (fun c => ((c : Int) : ZMod p))) ((point : Nat) : ZMod p) := by
  rw [evalPolyVal_eq_foldr]
  induction poly with
  | nil => simp [hornerF]
  | cons c t ih =>
    simp only [List.foldr_cons, hornerF, List.map_cons] at ih ⊢
    rw [intCast_emod_zmod]
    push_cast
    rw [ih]

theorem getD_range (k j : Nat) (hj : j < k) : (List.range k).getD j 0 = j := by
  rw [List.getD_eq_getElem _ _ (by simpa using hj), List.getElem_range]

theorem range_map_prod {M : Type*} [CommMonoid M] (h : Nat → M) (k : Nat) :
    ((List.range k).map h).prod = ∏ j in Finset.range k, h j := by
  rw [map_prod_range h 0, List.length_range]
  exact Finset.prod_congr rfl fun j hj =>
    congrArg h (getD_range k j (Finset.mem_range.mp hj))

theorem cast_product_sub (p : Nat) (x_s : List Int) (a : Int) (i : Nat)
    (hi : i < x_s.length) :
    ((product ((x_s.eraseIdx i).map (fun o => a - o)) : Int) : ZMod p)
      = ∏ j in (Finset.range x_s.length).erase i,
          ((a : ZMod p) - ((x_s.getD j 0 : Int) : ZMod p)) := by
  rw [product_eq_prod, Int.cast_list_prod, List.map_map]
  have hfun : ((fun z : Int => (z : ZMod p)) ∘ fun o => a - o)
      = fun o : Int => (a : ZMod p) - (o : ZMod p) := by
    funext o
    simp
  rw [hfun, map_eraseIdx_prod x_s _ 0 i hi]

/-- The image in `ZMod p` of `lagrange_interpolate`'s computed value at `x = 0`
is the classic Lagrange sum `Σ yᵢ · Πⱼ≠ᵢ (0 - xⱼ) / (xᵢ - xⱼ)`. -/
theorem lagrangeVal_zmod (p : Nat) [Fact (Nat.Prime p)] (x_s y_s : List Int)
    (hdist : ∀ i j, i < x_s.length → j < x_s.length → i ≠ j →
      ((x_s.getD i 0 : Int) : ZMod p) ≠ ((x_s.getD j 0 : Int) : ZMod p)) :
    ((lagrangeVal 0 x_s y_s p : Int) : ZMod p)
      = ∑ i in Finset.range x_s.length,
          ((y_s.getD i 0 : Int) : ZMod p)
            * (∏ j in (Finset.range x_s.length).erase i,
                (0 - ((x_s.getD j 0 : Int) : ZMod p)))
            * (∏ j in (Finset.range x_s.length).erase i,
                (((x_s.getD i 0 : Int) : ZMod p)
                  - ((x_s.getD j 0 : Int) : ZMod p)))⁻¹ := by
  have hp2 : 2 ≤ p := (Fact.out : Nat.Prime p).two_le
  set k := x_s.length with hk
  set V : Nat → ZMod p := fun j => ((x_s.getD j 0 : Int) : ZMod p) with hV
  set NZ : Nat → Int :=
    fun i => product ((x_s.eraseIdx i).map (fun o => 0 - o)) with hNZ
  set DZ : Nat → Int :=
    fun i => product ((x_s.eraseIdx i).map (fun o => x_s.getD i 0 - o)) with hDZ
  set denZ : Int := product ((List.range k).map DZ) with hdenZ
  set numZ : Int := ((List.range k).map (fun i =>
      divmodVal ((((List.range k).map NZ).getD i 0 * denZ * y_s.getD i 0)
          % (p : Int))
        (((List.range k).map DZ).getD i 0) p)).sum with hnumZ
  have hlag : lagrangeVal 0 x_s y_s p
      = (divmodVal numZ denZ p + (p : Int)) % (p : Int) := by
    rw [lagrangeVal]
  -- casts of the numerator/denominator products
  have hDf : ∀ i, i < k → ((DZ i : Int) : ZMod p)
      = ∏ j in (Finset.range k).erase i, (V i - V j) := by
    intro i hi
    rw [hDZ]
    exact cast_product_sub p x_s (x_s.getD i 0) i hi
  have hNf : ∀ i, i < k → ((NZ i : Int) : ZMod p)
      = ∏ j in (Finset.range k).erase i, (0 - V j) := by
    intro i hi
    rw [hNZ]
    have h0 := cast_product_sub p x_s 0 i hi
    rw [Int.cast_zero] at h0
    exact h0
  have hDne : ∀ i, i < k → ((DZ i : Int) : ZMod p) ≠ 0 := by
    intro i hi
    rw [hDf i hi]
    rw [Finset.prod_ne_zero_iff]
    intro j hj
    obtain ⟨hne, hjk⟩ := Finset.mem_erase.mp hj
    exact sub_ne_zero_of_ne (hdist i j hi (Finset.mem_range.mp hjk) (Ne.symm hne))
  have hdenf : ((denZ : Int) : ZMod p) = ∏ i in Finset.range k, ((DZ i : Int) : ZMod p) := by
    rw [hdenZ, product_eq_prod, Int.cast_list_prod, List.map_map,
      range_map_prod]
    rfl
  have hdenne : ((denZ : Int) : ZMod p) ≠ 0 := by
    rw [hdenf, Finset.prod_ne_zero_iff]
    intro i hi
    exact hDne i (Finset.mem_range.mp hi)
  -- the outer (v + p) % p cast
  rw [hlag, intCast_emod_zmod]
  push_cast [ZMod.natCast_self]
  rw [add_zero]
  -- divmod casts
  rw [divmodVal_zmod numZ denZ p hdenne]
  have hnumf : ((numZ : Int) : ZMod p)
      = ∑ i in Finset.range k,
          ((NZ i : Int) : ZMod p) * ((denZ : Int) : ZMod p)
            * ((y_s.getD i 0 : Int) : ZMod p) * (((DZ i : Int) : ZMod p))⁻¹ := by
    rw [hnumZ, map_sum_range, Int.cast_sum]
    refine Finset.sum_congr rfl fun i hi => ?_
    have hik := Finset.mem_range.mp hi
    rw [range_map_getD NZ k i hik, range_map_getD DZ k i hik,
      divmodVal_zmod _ _ p (hDne i hik), intCast_emod_zmod]
    push_cast
    ring
  rw [hnumf, Finset.sum_mul]
  refine Finset.sum_congr rfl fun i hi => ?_
  have hik := Finset.mem_range.mp hi
  rw [hNf i hik, hDf i hik]
  have hcancel : ((denZ : Int) : ZMod p) * (((denZ : Int) : ZMod p))⁻¹ = 1 :=
    mul_inv_cancel₀ hdenne
  have halg : ∀ A B C D : ZMod p, D * D⁻¹ = 1 →
      A * D * B * C * D⁻¹ = B * A * C := by
    intro A B C D h
    calc A * D * B * C * D⁻¹ = B * A * C * (D * D⁻¹) := by ring
      _ = B * A * C := by rw [h, mul_one]
  exact halg _ _ _ _ hcancel

/-- The value computed by `lagrange_interpolate` at `x = 0` coincides, in
`ZMod p`, with the evaluation at 0 of any polynomial of degree below the
number of nodes that passes through the given points. -/
theorem lagrangeVal_eval_poly (p : Nat) [Fact (Nat.Prime p)]
    (x_s y_s : List Int) (f : Polynomial (ZMod p))
    (hdist : ∀ i j, i < x_s.length → j < x_s.length → i ≠ j →
      ((x_s.getD i 0 : Int) : ZMod p) ≠ ((x_s.getD j 0 : Int) : ZMod p))
    (hdeg : f.degree < (x_s.length : WithBot Nat))
    (hy : ∀ i, i < x_s.length →
      ((y_s.getD i 0 : Int) : ZMod p)
        = f.eval ((x_s.getD i 0 : Int) : ZMod p)) :
    ((lagrangeVal 0 x_s y_s p : Int) : ZMod p) = Polynomial.eval 0 f := by
  rw [lagrangeVal_zmod p x_s y_s hdist]
  have hvs : Set.InjOn (fun i : Fin x_s.length => ((x_s.getD (i : Nat) 0 : Int) : ZMod p))
      (Finset.univ : Finset (Fin x_s.length)) := by
    intro a _ b _ hab
    by_contra hne
    exact hdist a b a.isLt b.isLt (fun h => hne (Fin.ext h)) hab
  have hcard : f.degree < ((Finset.univ : Finset (Fin x_s.length)).card : WithBot Nat) := by
    rw [Finset.card_univ, Fintype.card_fin]
    exact hdeg
  have hinterp := Lagrange.eq_interpolate hvs hcard
  have heval0 : Polynomial.eval 0 f
      = ∑ i : Fin x_s.length,
          Polynomial.eval ((x_s.getD (i : Nat) 0 : Int) : ZMod p) f
            * Polynomial.eval 0
              (Lagrange.basis Finset.univ
                (fun i : Fin x_s.length => ((x_s.getD (i : Nat) 0 : Int) : ZMod p)) i) := by
    conv_lhs => rw [hinterp]
    rw [Lagrange.interpolate_apply, Polynomial.eval_finset_sum]
    exact Finset.sum_congr rfl fun i _ => by
      rw [Polynomial.eval_mul, Polynomial.eval_C]
  have hbasis : ∀ i : Fin x_s.length,
      Polynomial.eval 0
        (Lagrange.basis Finset.univ
          (fun i : Fin x_s.length => ((x_s.getD (i : Nat) 0 : Int) : ZMod p)) i)
      = (∏ j in (Finset.range x_s.length).erase (i : Nat),
          (0 - ((x_s.getD j 0 : Int) : ZMod p)))
        * (∏ j in (Finset.range x_s.length).erase (i : Nat),
            (((x_s.getD (i : Nat) 0 : Int) : ZMod p)
              - ((x_s.getD j 0 : Int) : ZMod p)))⁻¹ := by
    intro i
    rw [Lagrange.basis, Polynomial.eval_prod]
    have hstep : ∀ j ∈ (Finset.univ : Finset (Fin x_s.length)).erase i,
        Polynomial.eval 0
          (Lagrange.basisDivisor ((x_s.getD (i : Nat) 0 : Int) : ZMod p)
            ((x_s.getD (j : Nat) 0 : Int) : ZMod p))
        = (((x_s.getD (i : Nat) 0 : Int) : ZMod p)
            - ((x_s.getD (j : Nat) 0 : Int) : ZMod p))⁻¹
          * (0 - ((x_s.getD (j : Nat) 0 : Int) : ZMod p)) := by
      intro j _
      rw [Lagrange.basisDivisor, Polynomial.eval_mul, Polynomial.eval_C,
        Polynomial.eval_sub, Polynomial.eval_X, Polynomial.eval_C]
    rw [Finset.prod_congr rfl hstep, Finset.prod_mul_distrib,
      Finset.prod_inv_distrib]
    rw [prod_fin_erase (fun m => (((x_s.getD (i : Nat) 0 : Int) : ZMod p)
        - ((x_s.getD m 0 : Int) : ZMod p))) x_s.length i]
    rw [prod_fin_erase (fun m => (0 - ((x_s.getD m 0 : Int) : ZMod p)))
      x_s.length i]
    ring
  rw [heval0]
  rw [← Fin.sum_univ_eq_sum_range (fun m =>
    ((y_s.getD m 0 : Int) : ZMod p)
      * (∏ j in (Finset.range x_s.length).erase m,
          (0 - ((x_s.getD j 0 : Int) : ZMod p)))
      * (∏ j in (Finset.range x_s.length).erase m,
          (((x_s.getD m 0 : Int) : ZMod p)
            - ((x_s.getD j 0 : Int) : ZMod p)))⁻¹) x_s.length]
  refine Finset.sum_congr rfl fun i _ => ?_
  rw [hbasis i, hy (i : Nat) i.isLt]
  ring

theorem bytes_int_id (n : Nat) : bytes_to_int (int_to_bytes n) = n := by
  unfold int_to_bytes
  set l := (bit_length n + 7) / 8 with hl
  have hfit : n < 256 ^ (if l = 0 then 1 else l) := by
    rcases Nat.eq_zero_or_pos n with h0 | hpos
    · subst h0
      split <;> positivity
    · have h1 : 1 ≤ bit_length n := by
        have hne : n ≠ 0 := by omega
        unfold bit_length
        simp [hne]
      have h2 : l ≠ 0 := by rw [hl]; omega
      simp only [h2, if_false]
      calc n < 2 ^ bit_length n := lt_two_pow_bit_length n
        _ ≤ 2 ^ (8 * l) := by
            apply Nat.pow_le_pow_right (by norm_num)
            rw [hl]; omega
        _ = 256 ^ l := by
            rw [show (256 : Nat) = 2 ^ 8 by norm_num, ← pow_mul]
  rw [bytes_to_int_toBytesBE, Nat.mod_eq_of_lt hfit]

theorem lagrangeVal_bounds (x : Int) (x_s y_s : List Int) (p : Nat)
    (hp : 0 < p) :
    0 ≤ lagrangeVal x x_s y_s p ∧ lagrangeVal x x_s y_s p < p := by
  have hpI : (0 : Int) < (p : Int) := by exact_mod_cast hp
  rw [lagrangeVal]
  exact ⟨Int.emod_nonneg _ (by omega), Int.emod_lt_of_pos _ hpI⟩

theorem int_eq_of_cast_zmod (a b : Int) (p : Nat) (hp : 0 < p)
    (ha1 : 0 ≤ a) (ha2 : a < p) (hb1 : 0 ≤ b) (hb2 : b < p)
    (h : ((a : Int) : ZMod p) = ((b : Int) : ZMod p)) : a = b := by
  have hsub : (((a - b : Int)) : ZMod p) = 0 := by
    push_cast
    rw [h]
    ring
  have hdvd : (p : Int) ∣ a - b := (ZMod.intCast_zmod_eq_zero_iff_dvd _ _).mp hsub
  have habs : |a - b| < (p : Int) := by
    rw [abs_lt]
    omega
  have := Int.eq_zero_of_abs_lt_dvd hdvd habs
  omega

theorem nodup_subset_length_le {α : Type*} [DecidableEq α] (l1 l2 : List α)
    (h1 : l1.Nodup) (h2 : l1 ⊆ l2) : l1.length ≤ l2.length := by
  have hc1 : l1.toFinset.card = l1.length := List.toFinset_card_of_nodup h1
  have hsub : l1.toFinset ⊆ l2.toFinset := by
    intro a ha
    rw [List.mem_toFinset] at ha ⊢
    exact h2 ha
  calc l1.length = l1.toFinset.card := hc1.symm
    _ ≤ l2.toFinset.card := Finset.card_le_card hsub
    _ ≤ l2.length := List.toFinset_card_le l2

set_option maxRecDepth 20000 in
theorem engine_prime_facts : ∀ l : Nat, l < 65 → 1 ≤ l →
    2 ^ (8 * l)
        ≤ (Secretshare.Primes.get
            (compute_closest_bigger_equal_pow2 l * 8)).getD 0 ∧
      compute_closest_bigger_equal_pow2 l * 8 - 1
        < (Secretshare.Primes.get
            (compute_closest_bigger_equal_pow2 l * 8)).getD 0 ∧
      2 ≤ (Secretshare.Primes.get
            (compute_closest_bigger_equal_pow2 l * 8)).getD 0 := by decide

theorem hornerF_zero {R : Type*} [CommRing R] (c : R) (l : List R) :
    hornerF (c :: l) 0 = c := by
  simp [hornerF]

/-- C1: threshold correctness of the engine.  For a setter-valid secret, any
`2 ≤ T ≤ N ≤ max_share_count` and any draw oracle, `split()` succeeds with `N`
shares, and for every duplicate-free subset of at least `T` of them, an engine
holding that subset recovers exactly the original secret from `combine()`
(replacing its stored secret with it).  The primality of the selected table
prime — true of every table entry — is taken as a hypothesis. -/
theorem C1_threshold_correctness (secret : Bytes) (T N : Nat)
    (draws : Nat → Nat) (sub : List Secretshare.Share)
    (hsec : Secretshare.SecretValid secret)
    (hT : 2 ≤ T) (hTN : T ≤ N)
    (hN : N ≤ (Secretshare.SecretShare.mk T N secret []).max_share_count)
    (hp : Nat.Prime (Secretshare.SecretShare.mk T N secret []).prime) :
    ∃ shares,
      ((Secretshare.SecretShare.mk T N secret []).split draws).2 = .ok shares ∧
      shares.length = N ∧
      (sub ⊆ shares → sub.Nodup → T ≤ sub.length →
        (Secretshare.SecretShare.mk T N secret sub).combine
          = (Secretshare.SecretShare.mk T N secret sub, .ok secret)) := by
  obtain ⟨hvb, hne, hhead, hlenb⟩ := hsec
  have hmaxb : Secretshare.Primes.max_bytes = 64 := by decide
  rw [hmaxb] at hlenb
  have hl1 : 1 ≤ secret.length := by
    cases hs : secret with
    | nil => exact absurd hs hne
    | cons a t => simp [hs]
  set p := (Secretshare.SecretShare.mk T N secret []).prime with hpdef
  have hpeq : p = (Secretshare.Primes.get
      (compute_closest_bigger_equal_pow2 secret.length * 8)).getD 0 := rfl
  obtain ⟨hp_pow, hp_msc, hp_two⟩ :=
    engine_prime_facts secret.length (by omega) hl1
  rw [← hpeq] at hp_pow hp_msc hp_two
  have hp2 : 2 ≤ p := hp.two_le
  haveI hfact : Fact (Nat.Prime p) := ⟨hp⟩
  have hmsc : (Secretshare.SecretShare.mk T N secret []).max_share_count
      = compute_closest_bigger_equal_pow2 secret.length * 8 - 1 := rfl
  have hNp : N < p := by
    rw [hmsc] at hN
    omega
  have hsecint : bytes_to_int secret < p := by
    have h1 := bytes_to_int_lt secret hvb
    have h2 : (256 : Nat) ^ secret.length = 2 ^ (8 * secret.length) := by
      rw [show (256 : Nat) = 2 ^ 8 by norm_num, ← pow_mul]
    omega
  set polyL : List Int := (bytes_to_int secret : Int) ::
      (List.range (T - 1)).map (fun i => (draws i : Int)) with hpolyL
  have hpoly_def : (Secretshare.SecretShare.mk T N secret []).poly draws
      = polyL := rfl
  have hpolyLen : polyL.length = T := by
    rw [hpolyL]
    simp only [List.length_cons, List.length_map, List.length_range]
    omega
  set mkShares : List Secretshare.Share := (List.range' 1 N).map
      (fun i => Secretshare.Share.mk i
        (int_to_bytes (evalPolyVal polyL i p).toNat)) with hmk
  have hmklen : mkShares.length = N := by
    rw [hmk, List.length_map, List.length_range']
  refine ⟨mkShares, ?_, hmklen, ?_⟩
  · -- split succeeds and stores exactly these shares
    have c1 : ¬ (Secretshare.SecretShare.mk T N secret []).max_share_count
        < (Secretshare.SecretShare.mk T N secret []).share_count := by
      show ¬ _ < N
      omega
    have c2 : ¬ (Secretshare.SecretShare.mk T N secret []).share_count
        < (Secretshare.SecretShare.mk T N secret []).threshold := by
      show ¬ N < T
      omega
    have c3 : ¬ (Secretshare.SecretShare.mk T N secret []).prime < 2 := by
      rw [← hpdef]
      omega
    simp only [Secretshare.SecretShare.split, if_neg c1, if_neg c2, if_neg c3,
      hpoly_def, ← hpdef]
  · -- the combine part
    intro hsub hnodup hTk
    have hk2 : 2 ≤ sub.length := le_trans hT hTk
    have hkN : sub.length ≤ N := by
      have := nodup_subset_length_le sub mkShares hnodup hsub
      omega
    have hmem : ∀ sh ∈ mkShares, 1 ≤ sh.point ∧ sh.point ≤ N ∧
        sh.value = int_to_bytes (evalPolyVal polyL sh.point p).toNat := by
      intro sh hshm
      rw [hmk] at hshm
      obtain ⟨x, hx, rfl⟩ := List.mem_map.mp hshm
      rw [List.mem_range'_1] at hx
      refine ⟨hx.1, ?_, rfl⟩
      show x ≤ N
      omega
    have hptsnd : (mkShares.map (fun sh => sh.point)).Nodup := by
      rw [hmk, List.map_map]
      have hcomp : ((fun sh : Secretshare.Share => sh.point) ∘ fun i =>
          Secretshare.Share.mk i (int_to_bytes (evalPolyVal polyL i p).toNat))
          = fun i => i := rfl
      rw [hcomp]
      have hid : (List.range' 1 N).map (fun i => i) = List.range' 1 N :=
        List.map_id' _
      rw [hid]
      exact List.nodup_range' 1 N
    have hptinj : ∀ a ∈ mkShares, ∀ b ∈ mkShares, a.point = b.point → a = b :=
      fun a ha b hb hab => List.inj_on_of_nodup_map hptsnd ha hb hab
    have hgetmem : ∀ i : Fin sub.length, sub.get i ∈ mkShares := fun i =>
      hsub (List.get_mem sub i.1 i.2)
    have hgetinj : Function.Injective sub.get :=
      List.nodup_iff_injective_get.mp hnodup
    have hdistpt : ∀ i j : Fin sub.length, i ≠ j →
        (sub.get i).point ≠ (sub.get j).point := by
      intro i j hij heq
      exact hij (hgetinj (hptinj _ (hgetmem i) _ (hgetmem j) heq))
    set xs : List Int := sub.map (fun sh => (sh.point : Int)) with hxs
    set ys : List Int := sub.map (fun sh => (bytes_to_int sh.value : Int))
      with hys
    have hxslen : xs.length = sub.length := by rw [hxs, List.length_map]
    have hyslen : ys.length = sub.length := by rw [hys, List.length_map]
    have hxg : ∀ i (hi : i < sub.length),
        xs.getD i 0 = ((sub.get ⟨i, hi⟩).point : Int) := by
      intro i hi
      rw [hxs, map_getD sub _ i (Secretshare.Share.mk 1 []) hi,
        List.getD_eq_getElem _ _ hi]
      rfl
    have hyg : ∀ i (hi : i < sub.length),
        ys.getD i 0 = (bytes_to_int (sub.get ⟨i, hi⟩).value : Int) := by
      intro i hi
      rw [hys, map_getD sub _ i (Secretshare.Share.mk 1 []) hi,
        List.getD_eq_getElem _ _ hi]
      rfl
    have hdistz : ∀ i j, i < xs.length → j < xs.length → i ≠ j →
        ((xs.getD i 0 : Int) : ZMod p) ≠ ((xs.getD j 0 : Int) : ZMod p) := by
      intro i j hi hj hij
      rw [hxslen] at hi hj
      rw [hxg i hi, hxg j hj]
      intro hcast
      have hpi := (hmem _ (hgetmem ⟨i, hi⟩)).2.1
      have hpj := (hmem _ (hgetmem ⟨j, hj⟩)).2.1
      have h1 : (((sub.get ⟨i, hi⟩).point : Nat) : ZMod p)
          = (((sub.get ⟨j, hj⟩).point : Nat) : ZMod p) := by
        push_cast at hcast ⊢
        exact hcast
      have h2 : (sub.get ⟨i, hi⟩).point = (sub.get ⟨j, hj⟩).point := by
        have v1 := ZMod.val_cast_of_lt
          (show (sub.get ⟨i, hi⟩).point < p by omega)
        have v2 := ZMod.val_cast_of_lt
          (show (sub.get ⟨j, hj⟩).point < p by omega)
        rw [← v1, ← v2, h1]
      exact hdistpt ⟨i, hi⟩ ⟨j, hj⟩ (Fin.ne_of_val_ne hij) h2
    obtain ⟨f, hfdeg, hfev⟩ := exists_poly_hornerF
      (polyL.map (fun c : Int => (c : ZMod p)))
    have hfdeg2 : f.degree < (xs.length : WithBot Nat) := by
      apply lt_of_lt_of_le hfdeg
      rw [List.length_map, hpolyLen, hxslen]
      exact_mod_cast Nat.cast_le.mpr hTk
    have hy : ∀ i, i < xs.length →
        ((ys.getD i 0 : Int) : ZMod p)
          = f.eval ((xs.getD i 0 : Int) : ZMod p) := by
      intro i hi
      rw [hxslen] at hi
      rw [hxg i hi, hyg i hi]
      obtain ⟨hp1, hpN, hval⟩ := hmem _ (hgetmem ⟨i, hi⟩)
      rw [hval, bytes_int_id]
      have hnn : 0 ≤ evalPolyVal polyL (sub.get ⟨i, hi⟩).point p :=
        (evalPolyVal_bounds _ _ _ (by omega)).1
      rw [show (((evalPolyVal polyL (sub.get ⟨i, hi⟩).point p).toNat : Nat) : Int)
          = evalPolyVal polyL (sub.get ⟨i, hi⟩).point p
        from Int.toNat_of_nonneg hnn]
      rw [evalPolyVal_cast, hfev]
      norm_cast
    have hmain := lagrangeVal_eval_poly p xs ys f hdistz hfdeg2 hy
    have hev0 : Polynomial.eval 0 f = ((bytes_to_int secret : Int) : ZMod p) := by
      rw [hfev 0, hpolyL, List.map_cons, hornerF_zero]
    have hbounds := lagrangeVal_bounds 0 xs ys p (by omega)
    have hlv : lagrangeVal 0 xs ys p = (bytes_to_int secret : Int) := by
      apply int_eq_of_cast_zmod _ _ p (by omega) hbounds.1 hbounds.2
        (by positivity) (by exact_mod_cast hsecint)
      rw [hmain, hev0]
    have hxsnodup : xs.Nodup := by
      have hsubpts : (sub.map (fun sh => sh.point)).Nodup := by
        apply List.Nodup.map_on ?_ hnodup
        intro a ha b hb hab
        exact hptinj a (hsub ha) b (hsub hb) hab
      have hcomp : xs = (sub.map (fun sh => sh.point)).map
          (fun n : Nat => (n : Int)) := by
        rw [hxs, List.map_map]
        rfl
      rw [hcomp]
      exact hsubpts.map (fun a b hab => by exact_mod_cast hab)
    have hc1 : ¬ sub.length < 2 := by omega
    have hc2 : ¬ N < sub.length := by omega
    have hlagok : lagrange_interpolate 0
        (sub.map (fun sh => (sh.point : Int)))
        (sub.map (fun sh => (bytes_to_int sh.value : Int)))
        (((Secretshare.SecretShare.mk T N secret sub).prime : Nat) : Int)
        = .ok ((bytes_to_int secret : Nat) : Int) := by
      show lagrange_interpolate 0 xs ys ((p : Nat) : Int) = _
      unfold lagrange_interpolate
      rw [if_neg (by exact_mod_cast not_lt.mpr hp2),
        if_neg (not_not_intro hxsnodup), Int.toNat_natCast, hlv]
    have hfromint : Secretshare.Secret.from_int
        (((bytes_to_int secret : Nat) : Int)).toNat = .ok secret := by
      rw [Int.toNat_natCast]
      unfold Secretshare.Secret.from_int
      rw [int_to_bytes_bytes_to_int secret hvb hne hhead]
      unfold Secretshare.Secret.value_check
      rw [if_neg hne, if_neg hhead, if_neg (by rw [hmaxb]; omega)]
    simp only [Secretshare.SecretShare.combine, if_neg hc1, if_neg hc2,
      hlagok, hfromint]

/-- C1 witness: secret `0x01`, threshold 2, share count 3, constant draw 5:
the produced shares are `(1,[6]), (2,[11]), (3,[16])` and combining the
subset `{(1,[6]), (3,[16])}` recovers the secret. -/
theorem C1_witness :
    (Secretshare.SecretShare.mk 2 3 [1]
        [Secretshare.Share.mk 1 [6], Secretshare.Share.mk 3 [16]]).combine
      = (Secretshare.SecretShare.mk 2 3 [1]
          [Secretshare.Share.mk 1 [6], Secretshare.Share.mk 3 [16]],
          .ok [1]) := by
  obtain ⟨shares, h1, h2, h3⟩ := C1_threshold_correctness [1] 2 3 (fun _ => 5)
    [Secretshare.Share.mk 1 [6], Secretshare.Share.mk 3 [16]]
    (by decide) (by decide) (by decide) (by decide)
    (by
      have hpe : (Secretshare.SecretShare.mk 2 3 [1] []).prime = 65537 := by
        decide
      rw [hpe]
      norm_num)
  have hcomp : ((Secretshare.SecretShare.mk 2 3 [1] []).split (fun _ => 5)).2
      = .ok [Secretshare.Share.mk 1 [6], Secretshare.Share.mk 2 [11],
          Secretshare.Share.mk 3 [16]] := by rfl
  rw [hcomp] at h1
  have hsh : shares = [Secretshare.Share.mk 1 [6], Secretshare.Share.mk 2 [11],
      Secretshare.Share.mk 3 [16]] := by
    injection h1 with h
    exact h.symm
  subst hsh
  exact h3 (by decide) (by decide) (by decide)
